import Mathlib

/-!
Verification of the grammar-driven expression synthesis engine
(`ultk/language/grammar.py` and `ultk/language/semantics.py`).

Shallow embedding conventions:
* Python strings are `List Char`; rule names, nonterminal symbols and the
  canonical expression syntax all live there.
* Python function objects are identified by a `Nat` tag (object identity);
  two nodes carry equal functions exactly when the tags agree, which models
  CPython's identity-based `==`/`hash` on function objects.  The behaviour
  of a function object is recovered through an environment `FuncEnv`
  mapping each tag to a function on dynamic Python values (`PyVal`).
* Python dicts keyed by an arbitrary hashable are association lists
  `List (K × GExpr)`; the key type's `__eq__` is an explicit boolean
  relation supplied by the caller.
* Fallible code returns `Except` (or pairs an error flag with the
  post-mutation state where the source mutates before raising).
-/

set_option maxHeartbeats 1600000

namespace Ultk

/-- Dynamic (untyped) Python values, as needed by expression evaluation:
booleans, referent objects, and `None`. -/
inductive PyVal where
  | pybool (b : Bool)
  | pyref (id : Nat) (name : List Char)
  | pynone
deriving DecidableEq

/-- Python truthiness of a `PyVal` (`bool(v)`). -/
def PyVal.truthy : PyVal → Bool
  | .pybool b => b
  | .pyref _ _ => true
  | .pynone => false

/-- Behaviour environment: maps a function object's identity tag to the
function it computes on a tuple of dynamic arguments. -/
def FuncEnv : Type := Nat → List PyVal → PyVal

/-- `GrammaticalExpression`: a derivation-tree node.  `leaf` is a node whose
`children` attribute is Python `None`; `node` holds an explicit (possibly
empty, as built by `parse` before children are appended) child list.
`func` is the identity tag of the node's function object; `form` is the
optional surface string (always `None` in every constructing code path of
the source). -/
inductive GExpr where
  | leaf (rule_name : List Char) (func : Nat) (form : Option (List Char))
  | node (rule_name : List Char) (func : Nat) (form : Option (List Char))
      (children : List GExpr)

mutual

/-- Boolean structural equality of expression trees, following
`GrammaticalExpression.__eq__`: the tuples
`(rule_name, form, func, children)` are compared, recursively. -/
def GExpr.beq : GExpr → GExpr → Bool
  | .leaf n f fm, .leaf n' f' fm' => n == n' && f == f' && fm == fm'
  | .node n f fm cs, .node n' f' fm' cs' =>
      n == n' && f == f' && fm == fm' && GExpr.beqList cs cs'
  | _, _ => false

/-- Pointwise `GExpr.beq` on child lists. -/
def GExpr.beqList : List GExpr → List GExpr → Bool
  | [], [] => true
  | c :: cs, c' :: cs' => GExpr.beq c c' && GExpr.beqList cs cs'
  | _, _ => false

end

mutual

theorem GExpr.beq_iff : ∀ a b : GExpr, GExpr.beq a b = true ↔ a = b
  | .leaf n f fm, .leaf n' f' fm' => by
      simp [GExpr.beq, and_assoc]
  | .leaf _ _ _, .node _ _ _ _ => by simp [GExpr.beq]
  | .node _ _ _ _, .leaf _ _ _ => by simp [GExpr.beq]
  | .node n f fm cs, .node n' f' fm' cs' => by
      simp [GExpr.beq, GExpr.beqList_iff cs cs', and_assoc]

theorem GExpr.beqList_iff : ∀ a b : List GExpr, GExpr.beqList a b = true ↔ a = b
  | [], [] => by simp [GExpr.beqList]
  | [], _ :: _ => by simp [GExpr.beqList]
  | _ :: _, [] => by simp [GExpr.beqList]
  | c :: cs, c' :: cs' => by
      simp [GExpr.beqList, GExpr.beq_iff c c', GExpr.beqList_iff cs cs']

end

instance : DecidableEq GExpr := fun a b =>
  decidable_of_iff (GExpr.beq a b = true) (GExpr.beq_iff a b)

mutual

/-- `len(expression)`: node count (`GrammaticalExpression.__len__`). -/
def GExpr.size : GExpr → Nat
  | .leaf _ _ _ => 1
  | .node _ _ _ cs => 1 + GExpr.sizeList cs

/-- Sum of sizes of a child list. -/
def GExpr.sizeList : List GExpr → Nat
  | [] => 0
  | c :: cs => GExpr.size c + GExpr.sizeList cs

end

/-- Maximum of a list of naturals, `0` on the empty list. -/
def listMax : List Nat → Nat
  | [] => 0
  | n :: ns => Nat.max n (listMax ns)

mutual

/-- Tree depth: a leaf has depth 0, an internal node one more than the
deepest child.  (Not in the source as code; it is the measure the spec's
depth claims quantify over, and the enumeration depth provably coincides
with it.) -/
def GExpr.depth : GExpr → Nat
  | .leaf _ _ _ => 0
  | .node _ _ _ cs => 1 + listMax (GExpr.depthList cs)

/-- Depths of a child list. -/
def GExpr.depthList : List GExpr → List Nat
  | [] => []
  | c :: cs => GExpr.depth c :: GExpr.depthList cs

end

mutual

/-- Canonical string form, `GrammaticalExpression.__str__`:
`rule_name` for a leaf, `rule_name(child1, child2, ...)` when the
children attribute is present (children joined by `", "`). -/
def GExpr.canStr : GExpr → List Char
  | .leaf n _ _ => n
  | .node n _ _ cs => n ++ '(' :: GExpr.canList cs ++ [')']

/-- `", ".join(str(child) for child in children)`. -/
def GExpr.canList : List GExpr → List Char
  | [] => []
  | [c] => GExpr.canStr c
  | c :: cs => GExpr.canStr c ++ ',' :: ' ' :: GExpr.canList cs

end

/-- A grammar `Rule`: display name, lhs symbol, optional rhs symbols
(`none` ⇔ terminal, following `Rule.is_terminal`), function identity tag,
and sampling weight. -/
structure Rule where
  name : List Char
  lhs : List Char
  rhs : Option (List (List Char))
  func : Nat
  weight : ℚ
deriving DecidableEq

/-- `Rule.is_terminal`: the rhs is `None`. -/
def Rule.is_terminal (r : Rule) : Bool := r.rhs.isNone

/-- A `Grammar`'s two indices: `_rules` (defaultdict lhs → list of rules,
insertion order) and `_rules_by_name` (name → rule), plus the start
symbol. -/
structure Grammar where
  start : List Char
  rulesByLhs : List (List Char × List Rule)
  rulesByName : List (List Char × Rule)
deriving DecidableEq

/-- `self._rules[lhs]` under `defaultdict(list)`: the stored list, or `[]`
when the key is missing. -/
def Grammar.rulesFor (g : Grammar) (lhs : List Char) : List Rule :=
  match g.rulesByLhs.find? (fun p => p.1 == lhs) with
  | some p => p.2
  | none => []

/-- `self._rules_by_name[name]` as an optional lookup (a missing key is a
Python `KeyError`). -/
def Grammar.lookupName (g : Grammar) (name : List Char) : Option Rule :=
  (g.rulesByName.find? (fun p => p.1 == name)).map (·.2)

/-- `self._rules[rule.lhs].append(rule)`: append to the existing bucket, or
create a fresh one (defaultdict). -/
def lhsInsert (m : List (List Char × List Rule)) (r : Rule) :
    List (List Char × List Rule) :=
  match m with
  | [] => [(r.lhs, [r])]
  | p :: rest =>
      if p.1 == r.lhs then (p.1, p.2 ++ [r]) :: rest
      else p :: lhsInsert rest r

/-- `Grammar.add_rule`.  Mirrors the source's statement order exactly: the
rule is appended to the lhs index first; only then is the duplicate-name
check performed and a `ValueError` raised.  The returned flag is `true`
when the call raises; the returned grammar is the post-mutation state
visible after the exception. -/
def Grammar.add_rule (g : Grammar) (r : Rule) : Bool × Grammar :=
  let g1 : Grammar := { g with rulesByLhs := lhsInsert g.rulesByLhs r }
  if (g.lookupName r.name).isSome then
    (true, g1)
  else
    (false, { g1 with rulesByName := g1.rulesByName ++ [(r.name, r)] })

/-- Python regex `\s` class, used by `str.strip()` and the `,\s*` token. -/
def pySpace (c : Char) : Bool :=
  c = ' ' || c = '\t' || c = '\n' || c = '\r' || c = '\x0b' || c = '\x0c'

/-- `str.strip()`: remove leading and trailing whitespace. -/
def pyStrip (l : List Char) : List Char :=
  ((l.dropWhile pySpace).reverse.dropWhile pySpace).reverse

theorem dropWhile_length_le {α : Type} (p : α → Bool) :
    ∀ l : List α, (l.dropWhile p).length ≤ l.length := by
  intro l
  induction l with
  | nil => simp
  | cons a l ih =>
    by_cases h : p a
    · simp [List.dropWhile, h]; omega
    · simp [List.dropWhile, h]

/-- A character usable inside a rule name, i.e. not one of the three
delimiter characters (regex class `[^{open}{close}{delimit}]`). -/
def nameChar (op cl dl : Char) (c : Char) : Bool :=
  !(c == op || c == cl || c == dl)

/-- The tokenizer of `Grammar.parse`: scanning with the regex
`name+open | name+ | delim\s* | close` by `finditer` (earliest alternative,
greedy, characters matching no alternative — a bare opener — are skipped).
Matches the regex semantics: at a closer, a one-char token; at the
delimiter, the delimiter plus the following whitespace run; at a bare
opener, no token; otherwise a maximal run of name characters, fused with a
directly following opener. -/
def tokenize (op cl dl : Char) : List Char → List (List Char)
  | [] => []
  | c :: rest =>
    if c = cl then [cl] :: tokenize op cl dl rest
    else if c = dl then
      (dl :: rest.takeWhile pySpace) :: tokenize op cl dl (rest.dropWhile pySpace)
    else if c = op then tokenize op cl dl rest
    else
      let nm := c :: rest.takeWhile (nameChar op cl dl)
      let r1 := rest.dropWhile (nameChar op cl dl)
      if h : r1.head? = some op then (nm ++ [op]) :: tokenize op cl dl r1.tail
      else if r1.isEmpty then [nm]
      else nm :: tokenize op cl dl r1
termination_by l => l.length
decreasing_by
  · simp
  · simp only [List.length_cons]
    have := dropWhile_length_le pySpace rest
    omega
  · simp
  · have h1 := dropWhile_length_le (nameChar op cl dl) rest
    have h2 : rest.dropWhile (nameChar op cl dl) ≠ [] := by
      intro hnil
      have h' : (rest.dropWhile (nameChar op cl dl)).head? = some op := h
      rw [hnil] at h'
      cases h' 
    have h3 := List.length_tail (rest.dropWhile (nameChar op cl dl))
    have h4 : 0 < (rest.dropWhile (nameChar op cl dl)).length :=
      List.length_pos.mpr h2
    simp only [List.length_cons]
    omega
  · have h1 := dropWhile_length_le (nameChar op cl dl) rest
    simp only [List.length_cons]
    omega

/-- One step of the tokenizer on a nonempty input. -/
theorem tokenize_cons (op cl dl c : Char) (rest : List Char) :
    tokenize op cl dl (c :: rest) =
      (if c = cl then [cl] :: tokenize op cl dl rest
       else if c = dl then
         (dl :: rest.takeWhile pySpace) ::
           tokenize op cl dl (rest.dropWhile pySpace)
       else if c = op then tokenize op cl dl rest
       else
         if (rest.dropWhile (nameChar op cl dl)).head? = some op then
           ((c :: rest.takeWhile (nameChar op cl dl)) ++ [op]) ::
             tokenize op cl dl (rest.dropWhile (nameChar op cl dl)).tail
         else if (rest.dropWhile (nameChar op cl dl)).isEmpty then
           [c :: rest.takeWhile (nameChar op cl dl)]
         else
           (c :: rest.takeWhile (nameChar op cl dl)) ::
             tokenize op cl dl (rest.dropWhile (nameChar op cl dl))) := by
  conv_lhs => rw [tokenize.eq_def]
  rfl

/-- Failure modes of `Grammar.parse` (all surface as Python exceptions:
`KeyError` for an unknown rule name, `IndexError`/`AttributeError` for
stack misuse on malformed input, `ValueError` for a final stack whose
length is not one). -/
inductive ParseErr where
  | emptyToken
  | unknownName (name : List Char)
  | stackUnderflow
  | appendToLeaf
  | badFinalStack (n : Nat)
deriving DecidableEq

/-- `stack[-1].children.append(child)`: appending to a node's child list;
on a leaf (children `None`) Python would raise `AttributeError`. -/
def appendChild : GExpr → GExpr → Option GExpr
  | .node n f fm cs, child => some (.node n f fm (cs ++ [child]))
  | .leaf _ _ _, _ => none

/-- One iteration of the token loop of `Grammar.parse`: the raw token is
stripped, then classified — last char equals the opener: push a fresh node
with empty children (function looked up by name); the bare delimiter or
closer: pop the finished child and append it to the new top of stack;
otherwise a primitive: push a leaf (function looked up by name). -/
def parseStep (g : Grammar) (op cl dl : Char) (tk : List Char)
    (stack : List GExpr) : Except ParseErr (List GExpr) :=
  let token := pyStrip tk
  match token.getLast? with
  | none => .error .emptyToken
  | some last =>
    if last = op then
      let nm := token.dropLast
      match g.lookupName nm with
      | none => .error (.unknownName nm)
      | some r => .ok (.node nm r.func none [] :: stack)
    else if token = [dl] || token = [cl] then
      match stack with
      | child :: parent :: stack' =>
        match appendChild parent child with
        | some parent' => .ok (parent' :: stack')
        | none => .error .appendToLeaf
      | _ => .error .stackUnderflow
    else
      match g.lookupName token with
      | none => .error (.unknownName token)
      | some r => .ok (.leaf token r.func none :: stack)

/-- The token loop of `Grammar.parse`: run `parseStep` over the tokens in
order; any raised exception aborts the loop. -/
def parseTokens (g : Grammar) (op cl dl : Char) :
    List (List Char) → List GExpr → Except ParseErr (List GExpr)
  | [], stack => .ok stack
  | tk :: rest, stack =>
    match parseStep g op cl dl tk stack with
    | .error e => .error e
    | .ok stack' => parseTokens g op cl dl rest stack'

/-- `Grammar.parse`: tokenize, run the stack loop, and require the final
stack to hold exactly one tree.  In the source the delimiters default to
`op = '('`, `cl = ')'`, `dl = ','`. -/
def Grammar.parse (g : Grammar) (expression : List Char) (op cl dl : Char) :
    Except ParseErr GExpr :=
  match parseTokens g op cl dl (tokenize op cl dl expression) [] with
  | .error e => .error e
  | .ok [e] => .ok e
  | .ok st => .error (.badFinalStack st.length)

/-- Caller-owned deduplication dictionary: an insertion-ordered association
list modelling a Python dict keyed by values of type `K`. -/
abbrev Dict (K : Type) : Type := List (K × GExpr)

/-- The deduplication arguments of `enumerate`/`enumerate_at_depth`.
`keyEq` is the `__eq__` of the key type, which the Python dict consults
for `in` and for indexing; `unique_key` and `compare_func` are the
caller-supplied functions of the same names. -/
structure UniqueArgs (K : Type) where
  keyEq : K → K → Bool
  unique_key : GExpr → K
  compare_func : GExpr → GExpr → Bool

/-- `expr_key in unique_dict` / `unique_dict[expr_key]`: the value of the
first entry whose key equals the query under `keyEq`. -/
def dictLookup {K : Type} (keyEq : K → K → Bool) (k : K) (d : Dict K) :
    Option GExpr :=
  (List.find? (fun p => keyEq p.1 k) d).map (·.2)

/-- `unique_dict[expr_key] = expression` when the key is already present:
the first entry whose key equals `expr_key` gets the new value (Python
keeps the originally inserted key object). -/
def dictUpdate {K : Type} (keyEq : K → K → Bool) (k : K) (v : GExpr) :
    Dict K → Dict K
  | [] => []
  | p :: rest =>
      if keyEq p.1 k then (p.1, v) :: rest else p :: dictUpdate keyEq k v rest

/-- `add_unique` (local function of `Grammar.enumerate_at_depth`): store
the expression under its key if the key is absent, or if the new
expression compares favourably (`compare_func`) to the incumbent. -/
def add_unique {K : Type} (ua : UniqueArgs K) (d : Dict K) (expression : GExpr) :
    Dict K :=
  let expr_key := ua.unique_key expression
  match dictLookup ua.keyEq expr_key d with
  | none => d ++ [(expr_key, expression)]
  | some v =>
      if ua.compare_func expression v then dictUpdate ua.keyEq expr_key expression d
      else d

/-- Apply `add_unique` when the dedup arguments are present (`do_unique`
in the source), else leave the dict alone. -/
def maybeAdd {K : Type} (u : Option (UniqueArgs K)) (d : Dict K) (e : GExpr) :
    Dict K :=
  match u with
  | none => d
  | some ua => add_unique ua d e

/-- Concatenation of the images of a list under a list-valued function
(the nested `for` loops / generator comprehensions of the source). -/
def flatList {α β : Type} (f : α → List β) : List α → List β
  | [] => []
  | x :: xs => f x ++ flatList f xs

/-- `itertools.product(range(depth), repeat=n)`, in Python's order (first
coordinate varies slowest). -/
def depthTuples (depth : Nat) : Nat → List (List Nat)
  | 0 => [[]]
  | n + 1 =>
      flatList (fun i => (depthTuples depth n).map (fun ds => i :: ds))
        (List.range depth)

/-- `itertools.product(*lists)`: all ways of choosing one element from each
list, in Python's order. -/
def listProduct {α : Type} : List (List α) → List (List α)
  | [] => [[]]
  | l :: ls => flatList (fun x => (listProduct ls).map (fun xs => x :: xs)) l

/-- Fuel-indexed core of `Grammar.enumerate_at_depth`.  The fuel only
serves Lean's termination checking; every use supplies `depth < fuel`, and
each recursive call (child depth at most `depth - 1`) preserves that.
Faithful to the source: at depth 0 the terminal rules of `lhs` are
processed first (each expression added to the unique dict when the dedup
arguments are present, then yielded); then, for every non-terminal rule,
every tuple of child depths from `range(depth)^arity` whose maximum is at
least `depth - 1` contributes the product of the child enumerations, each
resulting expression added then yielded.  The recursive child calls pass
no dedup arguments and no dict, exactly as the source does.  The first
component collects the yields in order; the second is the final dict.

Caveat mirroring a genuine crash in the source: for a rule with `rhs`
present but empty Python evaluates `max(())` and raises `ValueError`; this
model instead yields a childless node, so theorems about enumeration
assume `Grammar.NoEmptyRhs`. -/
def enumF (g : Grammar) (K : Type) (u : Option (UniqueArgs K)) :
    Nat → Nat → List Char → Dict K → List GExpr × Dict K
  | 0, _, _, dict => ([], dict)
  | fuel + 1, depth, lhs, dict =>
    let rules := g.rulesFor lhs
    let init : List GExpr × Dict K :=
      if depth = 0 then
        rules.foldl
          (fun acc r =>
            if r.is_terminal then
              (acc.1 ++ [GExpr.leaf r.name r.func none],
               maybeAdd u acc.2 (GExpr.leaf r.name r.func none))
            else acc)
          ([], dict)
      else ([], dict)
    rules.foldl
      (fun acc r =>
        match r.rhs with
        | none => acc
        | some rhs =>
          ((depthTuples depth rhs.length).filter
              (fun ds => depth - 1 ≤ listMax ds)).foldl
            (fun acc2 ds =>
              (listProduct ((ds.zip rhs).map
                  (fun p => (enumF g Unit none fuel p.1 p.2 []).1))).foldl
                (fun acc3 cs =>
                  (acc3.1 ++ [GExpr.node r.name r.func none cs],
                   maybeAdd u acc3.2 (GExpr.node r.name r.func none cs)))
                acc2)
            acc)
      init

/-- `Grammar.enumerate_at_depth`, instantiated with adequate fuel. -/
def Grammar.enumerate_at_depth (g : Grammar) (K : Type)
    (u : Option (UniqueArgs K)) (depth : Nat) (lhs : List Char) (dict : Dict K) :
    List GExpr × Dict K :=
  enumF g K u (depth + 1) depth lhs dict

/-- The sweep of `Grammar.enumerate`: `for num in range(depth):` yield all
of `enumerate_at_depth(num, lhs, ...)`, threading the shared dict. -/
def enumSweep (g : Grammar) (K : Type) (u : Option (UniqueArgs K))
    (lhs : List Char) : List Nat → Dict K → List GExpr × Dict K
  | [], dict => ([], dict)
  | n :: ns, dict =>
    let p := g.enumerate_at_depth K u n lhs dict
    let q := enumSweep g K u lhs ns p.2
    (p.1 ++ q.1, q.2)

/-- `Grammar.enumerate`: all expressions of depth `0, ..., depth - 1`, in
increasing depth order. -/
def Grammar.enumerate (g : Grammar) (K : Type) (u : Option (UniqueArgs K))
    (depth : Nat) (lhs : List Char) (dict : Dict K) : List GExpr × Dict K :=
  enumSweep g K u lhs (List.range depth) dict

/-- The pure yield sequence of an `enumerate` sweep (no dedup arguments
passed; the yields are independent of them). -/
def Grammar.enumYields (g : Grammar) (depth : Nat) (lhs : List Char) :
    List GExpr :=
  (g.enumerate Unit none depth lhs []).1

/-- The consumer loop of `get_unique_expressions`: each expression the
generator yields has just been `add_unique`d, and after each yield the
loop breaks when `len(unique_dict) == max_size` (`none` models the default
`float("inf")`, which never equals an integer size). -/
def runCap (K : Type) (ua : UniqueArgs K) (max_size : Option Nat) :
    List GExpr → Dict K → Dict K
  | [], d => d
  | e :: rest, d =>
    let d1 := add_unique ua d e
    match max_size with
    | some k => if d1.length = k then d1 else runCap K ua max_size rest d1
    | none => runCap K ua max_size rest d1

/-- `Grammar.get_unique_expressions`: run `enumerate` with a fresh dict and
the dedup arguments, stopping early once the dict reaches `max_size`.
Every dict update of `enumerate` happens exactly once per yielded
expression, immediately before that yield (proved as the frame theorem of
the enumeration below), so running the updates against the pure yield
sequence reproduces the source's behaviour, including abandoning the
generator mid-sweep. -/
def Grammar.get_unique_expressions (g : Grammar) (K : Type)
    (ua : UniqueArgs K) (depth : Nat) (lhs : List Char)
    (max_size : Option Nat) : Dict K :=
  runCap K ua max_size (g.enumYields depth lhs) []

/-- A `Referent`: a named domain object.  `Referent` defines no `__eq__`
or `__hash__`, so Python compares referent objects by identity; `id` is
the CPython object identity, unique per live object, so Lean equality of
these records models Python identity.  Extra properties play no role in
any claim. -/
structure Referent where
  id : Nat
  name : List Char
deriving DecidableEq

/-- A `Universe`: the ordered referents plus the prior (`name → mass`).
The prior is kept as the raw mapping; no claim consults it. -/
structure Universe where
  referents : List Referent
  prior : List (List Char × ℚ)
deriving DecidableEq

/-- `bool(universe)`: `Universe` defines `__len__` and no `__bool__`, so
truthiness is `len(self.referents) != 0`. -/
def Universe.truthy (u : Universe) : Bool := !u.referents.isEmpty

/-- Python `in` over a collection of referents (identity comparison). -/
def memRef (a : Referent) (l : List Referent) : Bool := l.contains a

/-- `Universe.__eq__`: `set(self.referents) == set(__o.referents)`. -/
def Universe.eqSet (u1 u2 : Universe) : Bool :=
  u1.referents.all (fun r => memRef r u2.referents) &&
  u2.referents.all (fun r => memRef r u1.referents)

/-- A `Meaning`: the selected referents, the universe, and the raw `dist`
argument.  (The source normalizes `dist` into `self.dist` with float
division; no claim consults the stored distribution — in particular
`__eq__`/`__hash__` do not read it — so the raw argument is kept.) -/
structure Meaning where
  referents : List Referent
  univ : Universe
  dist : Option (List (List Char × ℚ))
deriving DecidableEq

/-- `Meaning.__init__`'s validation: the referents must form a subset of
the universe's referents, else a `ValueError` is raised. -/
def Meaning.init (referents : List Referent) (univ : Universe)
    (dist : Option (List (List Char × ℚ))) : Except Unit Meaning :=
  if referents.all (fun r => memRef r univ.referents) then
    .ok ⟨referents, univ, dist⟩
  else .error ()

/-- `Meaning.__bool__`: `bool(self.referents) and bool(self.universe)`. -/
def Meaning.truthy (m : Meaning) : Bool :=
  !m.referents.isEmpty && m.univ.truthy

/-- `Meaning.__eq__`: `(self.referents, self.universe) ==
(other.referents, other.universe)` — the distribution is not consulted.
Referent sequences compare elementwise (Python list equality with
identity-based element equality); universes compare as sets. -/
def Meaning.eq (m1 m2 : Meaning) : Bool :=
  m1.referents == m2.referents && m1.univ.eqSet m2.univ

/-- `Meaning.__hash__` is `hash(tuple(self.referents))`: modelled by the
referent tuple itself, making "depends only on the referents" an exact
statement. -/
def Meaning.hashKey (m : Meaning) : List Referent := m.referents

mutual

/-- `GrammaticalExpression.__call__`: a leaf applies its function to the
external arguments directly; a node applies its function to the tuple of
child results on the same arguments. -/
def GExpr.call (env : FuncEnv) : GExpr → List PyVal → PyVal
  | .leaf _ f _, args => env f args
  | .node _ f _ cs, args => env f (GExpr.callList env cs args)

/-- Child results, in order. -/
def GExpr.callList (env : FuncEnv) : List GExpr → List PyVal → List PyVal
  | [], _ => []
  | c :: cs, args => GExpr.call env c args :: GExpr.callList env cs args

end

/-- The meaning computed on a cache miss in `evaluate`: the universe's
referents for which calling the tree is truthy, wrapped with the universe
(no `dist` argument).  `Meaning.__init__`'s subset validation passes
trivially since the referents are filtered from the universe. -/
def computeMeaning (env : FuncEnv) (t : GExpr) (u : Universe) : Meaning :=
  ⟨u.referents.filter
      (fun r => (GExpr.call env t [PyVal.pyref r.id r.name]).truthy),
   u, none⟩

/-- `GrammaticalExpression.evaluate`.  The node's mutable `meaning` slot is
threaded alongside as an `Option Meaning`: `none` models both "nothing
stored" and the empty meaning `Expression.__init__` stores when handed
`None` — the source deliberately tests `not self.meaning` (Python
falsiness, per the NB comment in the source), not `is None`, and both are
falsy, so the two states are indistinguishable to this method.  Returns
the computed meaning and the updated slot. -/
def GExpr.evaluate (env : FuncEnv) (t : GExpr) (slot : Option Meaning)
    (univ : Universe) : Meaning × Option Meaning :=
  match slot with
  | some m =>
      if m.truthy then (m, some m)
      else
        let m' := computeMeaning env t univ
        (m', some m')
  | none =>
      let m' := computeMeaning env t univ
      (m', some m')

/-! ### Concrete fixtures (the spec's own test scenario, §8): nonterminal
`B`, terminal rules `T1`/`T2`, binary rule `AND`, built by `add_rule`. -/

/-- Terminal rule `T1 : B` (function tag 1). -/
def ruleT1 : Rule := ⟨"T1".toList, "B".toList, none, 1, 1⟩

/-- Terminal rule `T2 : B` (function tag 2). -/
def ruleT2 : Rule := ⟨"T2".toList, "B".toList, none, 2, 1⟩

/-- Binary rule `AND : B -> (B, B)` (function tag 3). -/
def ruleAND : Rule :=
  ⟨"AND".toList, "B".toList, some ["B".toList, "B".toList], 3, 1⟩

/-- The scenario grammar, built by three successful `add_rule` calls. -/
def gB : Grammar :=
  ((((Grammar.mk "B".toList [] []).add_rule ruleT1).2.add_rule
      ruleT2).2.add_rule ruleAND).2

/-- Root rule name of an expression. -/
def GExpr.ruleNameOf : GExpr → List Char
  | .leaf n _ _ => n
  | .node n _ _ _ => n

/-- A sample dedup argument pack: key = root rule name, comparison =
strictly smaller size (the spec's typical "shortest wins"). -/
def uaName : UniqueArgs (List Char) :=
  ⟨fun a b => a == b, GExpr.ruleNameOf, fun a b => decide (a.size < b.size)⟩

/-- A referent and one-point universes used by concrete witnesses. -/
def refA : Referent := ⟨0, "a".toList⟩

/-- One-referent universe over `refA`. -/
def uniA : Universe := ⟨[refA], []⟩

/-- A second, distinct universe. -/
def uniB : Universe := ⟨[⟨1, "b".toList⟩], []⟩

/-- The meaning `{refA}` over `uniA` with no distribution argument. -/
def mA : Meaning := ⟨[refA], uniA, none⟩

/-- Same referents and universe as `mA`, different distribution. -/
def mB : Meaning := ⟨[refA], uniA, some [("a".toList, 1)]⟩

/-- Function environment returning `False` on every call. -/
def envFalse : FuncEnv := fun _ _ => PyVal.pybool false

/-- Function environment returning `True` on every call. -/
def envTrue : FuncEnv := fun _ _ => PyVal.pybool true

/-- A one-leaf expression. -/
def tLeafT : GExpr := GExpr.leaf "T".toList 1 none

/-! ### C6 — duplicate rule names at construction -/

/-- C6 (code bug): adding a rule whose name duplicates an existing rule's
raises (`flag = true`), but the grammar is NOT left unchanged: the source
appends to the lhs index before performing the name check, so after the
exception the duplicate rule sits in `_rules[lhs]` while `_rules_by_name`
still maps the name to the old rule — an inconsistent, partially mutated
grammar, contradicting the claim that the duplicate appears in neither
index. -/
theorem add_rule_duplicate_mutates_lhs_index :
    (((Grammar.mk "B".toList [] []).add_rule ruleT1).2.add_rule
        ⟨"T1".toList, "B".toList, none, 9, 1⟩).1 = true ∧
    (((Grammar.mk "B".toList [] []).add_rule ruleT1).2.add_rule
        ⟨"T1".toList, "B".toList, none, 9, 1⟩).2.rulesFor "B".toList =
      [ruleT1, ⟨"T1".toList, "B".toList, none, 9, 1⟩] ∧
    (((Grammar.mk "B".toList [] []).add_rule ruleT1).2.add_rule
        ⟨"T1".toList, "B".toList, none, 9, 1⟩).2.lookupName "T1".toList =
      some ruleT1 := by
  decide

/-! ### C10 — `Meaning` equality/hash ignore the distribution -/

/-- `Universe.__eq__` is reflexive. -/
theorem Universe.eqSet_refl (u : Universe) : u.eqSet u = true := by
  simp only [Universe.eqSet, memRef, Bool.and_eq_true, List.all_eq_true]
  constructor <;> · intro r hr; simpa using hr

/-- C10: two `Meaning`s constructed over the same referents and universe
but different distribution arguments compare equal (`__eq__` reads only
referents and universe), have the same hash key (`__hash__` reads only the
referents), and a dict keyed by `Meaning.__eq__` treats them as the same
key, so meaning-keyed deduplication identifies them. -/
theorem meaning_eq_hash_ignore_dist
    (refs : List Referent) (u : Universe)
    (d1 d2 : Option (List (List Char × ℚ))) (m1 m2 : Meaning)
    (h1 : Meaning.init refs u d1 = .ok m1)
    (h2 : Meaning.init refs u d2 = .ok m2) :
    Meaning.eq m1 m2 = true ∧ m1.hashKey = m2.hashKey ∧
    ∀ v : GExpr, dictLookup Meaning.eq m1 [(m2, v)] = some v := by
  unfold Meaning.init at h1 h2
  by_cases hsub : refs.all (fun r => memRef r u.referents) = true
  · simp only [hsub, if_true, Except.ok.injEq] at h1 h2
    subst h1; subst h2
    refine ⟨?_, rfl, ?_⟩
    · simp [Meaning.eq, Universe.eqSet_refl]
    · intro v
      simp [dictLookup, List.find?, Meaning.eq, Universe.eqSet_refl]
  · simp [hsub] at h1

/-- Witness for C10 at a concrete universe, referent list and pair of
distinct distribution arguments. -/
theorem meaning_eq_hash_ignore_dist_witness :
    Meaning.eq mA mB = true ∧ mA.hashKey = mB.hashKey ∧
    ∀ v : GExpr, dictLookup Meaning.eq mA [(mB, v)] = some v :=
  meaning_eq_hash_ignore_dist [refA] uniA none (some [("a".toList, 1)])
    mA mB (by rfl) (by rfl)

/-! ### C8 — `evaluate` memoization -/

/-- C8 counterexample: a computed-and-cached meaning is NOT always
returned by later calls.  `evaluate` tests `not self.meaning` (Python
falsiness, via `Meaning.__bool__`), so a cached meaning with an empty
referent set is falsy and is recomputed — here against a different
universe, yielding a different meaning than the cached one. -/
theorem evaluate_recomputes_falsy_cached_meaning :
    (GExpr.evaluate envFalse tLeafT
        (GExpr.evaluate envFalse tLeafT none uniA).2 uniB).1 ≠
      (GExpr.evaluate envFalse tLeafT none uniA).1 := by
  decide

/-- Every branch of `evaluate` stores the returned meaning in the slot. -/
theorem evaluate_slot_eq (env : FuncEnv) (t : GExpr) (slot : Option Meaning)
    (u : Universe) :
    (GExpr.evaluate env t slot u).2 = some (GExpr.evaluate env t slot u).1 := by
  unfold GExpr.evaluate
  cases slot with
  | none => simp
  | some m0 =>
      by_cases h : m0.truthy = true
      · simp [h]
      · simp [h]

/-- C8 (amended): once `evaluate` has computed and cached a *truthy*
meaning (nonempty referents in a nonempty universe), every subsequent
call returns that cached meaning unchanged, regardless of the universe
passed later; only a falsy (empty) cached meaning is recomputed against
the new universe. -/
theorem evaluate_truthy_cache_stable (env : FuncEnv) (t : GExpr)
    (slot : Option Meaning) (u u' : Universe) (m : Meaning)
    (s : Option Meaning)
    (h : GExpr.evaluate env t slot u = (m, s)) (ht : m.truthy = true) :
    GExpr.evaluate env t s u' = (m, s) := by
  have hs : s = some m := by
    have h2 := evaluate_slot_eq env t slot u
    rw [h] at h2
    exact h2
  subst hs
  simp [GExpr.evaluate, ht]

/-- Witness for the amended C8 at a concrete expression whose computed
meaning is truthy: the second call (with a different universe) returns the
cached meaning. -/
theorem evaluate_truthy_cache_stable_witness :
    GExpr.evaluate envTrue tLeafT (some mA) uniB = (mA, some mA) :=
  evaluate_truthy_cache_stable envTrue tLeafT none uniA uniB mA (some mA)
    (by decide) (by decide)

/-! ### C5 — the `max_size` cap of `get_unique_expressions` -/

/-- `dictUpdate` replaces a value in place, so the dict size is kept. -/
theorem dictUpdate_length {K : Type} (keq : K → K → Bool) (k : K) (v : GExpr) :
    ∀ d : Dict K, (dictUpdate keq k v d).length = d.length := by
  intro d
  induction d with
  | nil => rfl
  | cons p rest ih =>
      by_cases h : keq p.1 k = true
      · simp [dictUpdate, h]
      · simp [dictUpdate, h, ih]

/-- One `add_unique` grows the dict by at most one entry. -/
theorem add_unique_length {K : Type} (ua : UniqueArgs K) (d : Dict K)
    (e : GExpr) :
    (add_unique ua d e).length = d.length ∨
    (add_unique ua d e).length = d.length + 1 := by
  unfold add_unique
  cases hl : dictLookup ua.keyEq (ua.unique_key e) d with
  | none => right; simp [hl]
  | some v =>
      by_cases hc : ua.compare_func e v = true
      · left; simp [hl, hc, dictUpdate_length]
      · left; simp [hl, hc]

/-- Behaviour of the capped consumer loop started strictly below the cap:
it processes a prefix of the yields, never exceeds the cap, and stops
exactly when (and only when) the cap is reached. -/
theorem runCap_spec {K : Type} (ua : UniqueArgs K) (k : Nat) :
    ∀ (ys : List GExpr) (d : Dict K), d.length < k →
    ∃ pre post, ys = pre ++ post ∧
      runCap K ua (some k) ys d = List.foldl (add_unique ua) d pre ∧
      (runCap K ua (some k) ys d).length ≤ k ∧
      (post ≠ [] → (runCap K ua (some k) ys d).length = k) ∧
      (∀ q q', pre = q ++ q' → q' ≠ [] →
        (List.foldl (add_unique ua) d q).length < k) := by
  intro ys
  induction ys with
  | nil =>
      intro d hd
      refine ⟨[], [], rfl, rfl, Nat.le_of_lt hd, by simp, ?_⟩
      intro q q' hq hq'
      have : q' = [] := by
        rcases List.append_eq_nil.mp hq.symm with ⟨_, h2⟩
        exact h2
      exact absurd this hq'
  | cons e rest ih =>
      intro d hd
      by_cases hstop : (add_unique ua d e).length = k
      · refine ⟨[e], rest, rfl, ?_, ?_, ?_, ?_⟩
        · simp [runCap, hstop]
        · simp [runCap, hstop]
        · intro _; simp [runCap, hstop]
        · intro q q' hq hq'
          cases q with
          | nil => simpa using hd
          | cons e1 q0 =>
              have h1 : e = e1 ∧ [] = q0 ++ q' := by simpa using hq
              have h2 : q' = [] := (List.append_eq_nil.mp h1.2.symm).2
              exact absurd h2 hq'
      · have hlt : (add_unique ua d e).length < k := by
          rcases add_unique_length ua d e with h | h <;> omega
        obtain ⟨pre, post, hsplit, hrun, hle, hforce, hmin⟩ :=
          ih (add_unique ua d e) hlt
        refine ⟨e :: pre, post, by simp [hsplit], ?_, ?_, ?_, ?_⟩
        · simp [runCap, hstop, hrun]
        · simpa [runCap, hstop] using hle
        · intro hp; simpa [runCap, hstop] using hforce hp
        · intro q q' hq hq'
          cases q with
          | nil => simpa using hd
          | cons e1 q0 =>
              have h1 : e = e1 ∧ pre = q0 ++ q' := by simpa using hq
              cases h1.1
              simpa using hmin q0 q' h1.2 hq'

/-- C5 counterexample: with `max_size = 0` the loop's
`len(unique_dict) == max_size` test never fires (the size is already 1 at
the first check and only grows), so the returned mapping exceeds the cap —
refuting the claim for every finite `max_size`. -/
theorem get_unique_expressions_ignores_zero_cap :
    ¬ ((gB.get_unique_expressions (List Char) uaName 1 "B".toList
          (some 0)).length ≤ 0) := by
  decide

/-- C5 (amended): for every *positive* finite cap `k`,
`get_unique_expressions` returns a mapping of at most `k` entries; it
consumes only a prefix of the enumeration (remaining yields cause no
further updates), the prefix ends exactly when the mapping reaches size
`k` (a nonempty remainder forces size `k`, and every proper prefix of the
consumed part is still below `k`). -/
theorem get_unique_expressions_size_cap (g : Grammar) (K : Type)
    (ua : UniqueArgs K) (depth : Nat) (lhs : List Char) (k : Nat)
    (hk : 1 ≤ k) :
    (g.get_unique_expressions K ua depth lhs (some k)).length ≤ k ∧
    ∃ pre post, g.enumYields depth lhs = pre ++ post ∧
      g.get_unique_expressions K ua depth lhs (some k) =
        List.foldl (add_unique ua) [] pre ∧
      (post ≠ [] →
        (g.get_unique_expressions K ua depth lhs (some k)).length = k) ∧
      (∀ q q', pre = q ++ q' → q' ≠ [] →
        (List.foldl (add_unique ua) [] q).length < k) := by
  have h0 : ([] : Dict K).length < k := by simpa using hk
  obtain ⟨pre, post, hsplit, hrun, hle, hforce, hmin⟩ :=
    runCap_spec ua k (g.enumYields depth lhs) [] h0
  refine ⟨?_, pre, post, hsplit, ?_, ?_, hmin⟩
  · show (runCap K ua (some k) (g.enumYields depth lhs) []).length ≤ k
    exact hle
  · show runCap K ua (some k) (g.enumYields depth lhs) [] = _
    exact hrun
  · intro hp
    show (runCap K ua (some k) (g.enumYields depth lhs) []).length = k
    exact hforce hp

/-- Witness for the amended C5: the scenario grammar capped at `k = 2`
with depth 2 stops after the two terminal yields. -/
theorem get_unique_expressions_size_cap_witness :
    (gB.get_unique_expressions (List Char) uaName 2 "B".toList
        (some 2)).length ≤ 2 ∧
    ∃ pre post, gB.enumYields 2 "B".toList = pre ++ post ∧
      gB.get_unique_expressions (List Char) uaName 2 "B".toList (some 2) =
        List.foldl (add_unique uaName) [] pre ∧
      (post ≠ [] →
        (gB.get_unique_expressions (List Char) uaName 2 "B".toList
            (some 2)).length = 2) ∧
      (∀ q q', pre = q ++ q' → q' ≠ [] →
        (List.foldl (add_unique uaName) [] q).length < 2) :=
  get_unique_expressions_size_cap gB (List Char) uaName 2 "B".toList 2
    (by decide)

/-! ### Normal form of the enumeration: pure yields, dict as a fold -/

theorem flatList_append {α β : Type} (f : α → List β) (l1 l2 : List α) :
    flatList f (l1 ++ l2) = flatList f l1 ++ flatList f l2 := by
  induction l1 with
  | nil => simp [flatList]
  | cons x xs ih => simp [flatList, ih]

theorem mem_flatList {α β : Type} (f : α → List β) (y : β) :
    ∀ L : List α, y ∈ flatList f L ↔ ∃ x ∈ L, y ∈ f x := by
  intro L
  induction L with
  | nil => simp [flatList]
  | cons x xs ih => simp [flatList, ih]

theorem flatList_singleton {α β : Type} (f : α → β) (L : List α) :
    flatList (fun x => [f x]) L = L.map f := by
  induction L with
  | nil => rfl
  | cons x xs ih => simp [flatList, ih]

theorem flatList_eq_nil {α β : Type} (f : α → List β) (L : List α)
    (h : ∀ x ∈ L, f x = []) : flatList f L = [] := by
  induction L with
  | nil => rfl
  | cons x xs ih =>
      simp [flatList, h x (by simp)]
      exact ih (fun x hx => h x (by simp [hx]))

theorem foldl_flatList {α β γ : Type} (f : γ → β → γ) (h : α → List β) :
    ∀ (L : List α) (d : γ),
      L.foldl (fun d x => (h x).foldl f d) d = (flatList h L).foldl f d := by
  intro L
  induction L with
  | nil => intro d; rfl
  | cons x xs ih => intro d; simp [flatList, List.foldl_append, ih]

/-- A fold whose step appends a chunk of yields and updates the dict from
the same chunk splits into the concatenated yields and a dict fold. -/
theorem foldl_acc_pair {α K : Type} (h : α → List GExpr)
    (dstep : Dict K → α → Dict K)
    (step : (List GExpr × Dict K) → α → (List GExpr × Dict K))
    (hstep : ∀ a x, step a x = (a.1 ++ h x, dstep a.2 x)) :
    ∀ (L : List α) (acc : List GExpr × Dict K),
      L.foldl step acc = (acc.1 ++ flatList h L, L.foldl dstep acc.2) := by
  intro L
  induction L with
  | nil => intro acc; simp [flatList]
  | cons x xs ih =>
      intro acc
      rw [List.foldl_cons, hstep, ih, List.foldl_cons]
      simp [flatList]

/-- Yield chunk of one rule in the depth-0 terminal pass. -/
def termChunk (r : Rule) : List GExpr :=
  if r.is_terminal then [GExpr.leaf r.name r.func none] else []

/-- Yield chunk of one rule in the non-terminal pass of depth `depth`
(with child enumerations drawn from `enumYC`, supplied to break the
recursion). -/
def ruleChunk (enumYC : Nat → List Char → List GExpr) (depth : Nat)
    (r : Rule) : List GExpr :=
  match r.rhs with
  | none => []
  | some rhs =>
      flatList
        (fun ds =>
          (listProduct ((ds.zip rhs).map (fun p => enumYC p.1 p.2))).map
            (fun cs => GExpr.node r.name r.func none cs))
        ((depthTuples depth rhs.length).filter
          (fun ds => depth - 1 ≤ listMax ds))

/-- The pure yield sequence of `enumF` (same recursion, no dict). -/
def enumY (g : Grammar) : Nat → Nat → List Char → List GExpr
  | 0, _, _ => []
  | fuel + 1, depth, lhs =>
    (if depth = 0 then flatList termChunk (g.rulesFor lhs) else []) ++
    flatList (ruleChunk (enumY g fuel) depth) (g.rulesFor lhs)

/-- `enumF` in normal form: the yields are the pure `enumY` sequence, and
the dict results from folding the dict update over exactly that yield
sequence, in order. -/
theorem enumF_eq (g : Grammar) :
    ∀ (fuel depth : Nat) (lhs : List Char) (K : Type)
      (u : Option (UniqueArgs K)) (dict : Dict K),
      enumF g K u fuel depth lhs dict =
        (enumY g fuel depth lhs,
         List.foldl (maybeAdd u) dict (enumY g fuel depth lhs)) := by
  intro fuel
  induction fuel with
  | zero => intro depth lhs K u dict; rfl
  | succ fuel ih =>
      intro depth lhs K u dict
      show
        ((g.rulesFor lhs).foldl
           (fun acc r =>
             match r.rhs with
             | none => acc
             | some rhs =>
               ((depthTuples depth rhs.length).filter
                   (fun ds => depth - 1 ≤ listMax ds)).foldl
                 (fun acc2 ds =>
                   (listProduct ((ds.zip rhs).map
                       (fun p => (enumF g Unit none fuel p.1 p.2 []).1))).foldl
                     (fun acc3 cs =>
                       (acc3.1 ++ [GExpr.node r.name r.func none cs],
                        maybeAdd u acc3.2 (GExpr.node r.name r.func none cs)))
                     acc2)
                 acc)
           (if depth = 0 then
              (g.rulesFor lhs).foldl
                (fun acc r =>
                  if r.is_terminal then
                    (acc.1 ++ [GExpr.leaf r.name r.func none],
                     maybeAdd u acc.2 (GExpr.leaf r.name r.func none))
                  else acc)
                ([], dict)
            else ([], dict))) = _
      simp only [ih]
      have hterm :
          ∀ d0 : Dict K,
            (g.rulesFor lhs).foldl
              (fun (acc : List GExpr × Dict K) r =>
                if r.is_terminal then
                  (acc.1 ++ [GExpr.leaf r.name r.func none],
                   maybeAdd u acc.2 (GExpr.leaf r.name r.func none))
                else acc)
              ([], d0) =
            (flatList termChunk (g.rulesFor lhs),
             List.foldl (maybeAdd u) d0 (flatList termChunk (g.rulesFor lhs))) := by
        intro d0
        rw [foldl_acc_pair termChunk
              (fun d r => (termChunk r).foldl (maybeAdd u) d) _ ?hs,
            foldl_flatList]
        · simp
        case hs =>
          intro a r
          by_cases h : r.is_terminal = true
          · simp [termChunk, h, List.foldl]
          · simp [termChunk, h]
      have hrule :
          ∀ (a : List GExpr × Dict K) (r : Rule),
            (match r.rhs with
              | none => a
              | some rhs =>
                ((depthTuples depth rhs.length).filter
                    (fun ds => depth - 1 ≤ listMax ds)).foldl
                  (fun acc2 ds =>
                    (listProduct ((ds.zip rhs).map
                        (fun p => enumY g fuel p.1 p.2))).foldl
                      (fun acc3 cs =>
                        (acc3.1 ++ [GExpr.node r.name r.func none cs],
                         maybeAdd u acc3.2 (GExpr.node r.name r.func none cs)))
                      acc2)
                  a) =
            (a.1 ++ ruleChunk (enumY g fuel) depth r,
             (ruleChunk (enumY g fuel) depth r).foldl (maybeAdd u) a.2) := by
        intro a r
        cases hr : r.rhs with
        | none => simp [ruleChunk, hr]
        | some rhs =>
            dsimp only
            unfold ruleChunk
            rw [hr]
            dsimp only
            rw [foldl_acc_pair
                  (fun ds =>
                    (listProduct ((ds.zip rhs).map
                        (fun p => enumY g fuel p.1 p.2))).map
                      (fun cs => GExpr.node r.name r.func none cs))
                  (fun d ds =>
                    ((listProduct ((ds.zip rhs).map
                        (fun p => enumY g fuel p.1 p.2))).map
                      (fun cs => GExpr.node r.name r.func none cs)).foldl
                      (maybeAdd u) d)
                  _ ?hs2, foldl_flatList]
            case hs2 =>
              intro a2 ds
              dsimp only
              rw [foldl_acc_pair
                    (fun cs => [GExpr.node r.name r.func none cs])
                    (fun d cs =>
                      maybeAdd u d (GExpr.node r.name r.func none cs))
                    _ (fun a3 cs => rfl), flatList_singleton, List.foldl_map]
      rw [foldl_acc_pair (ruleChunk (enumY g fuel) depth)
            (fun d r => (ruleChunk (enumY g fuel) depth r).foldl (maybeAdd u) d)
            _ hrule,
          foldl_flatList]
      by_cases hd : depth = 0
      · subst hd
        rw [hterm dict]
        simp [enumY, List.foldl_append]
      · rw [if_neg hd]
        simp [enumY, hd, List.foldl_append]

/-- Folding the no-dedup update changes nothing. -/
theorem foldl_maybeAdd_none {K : Type} :
    ∀ (ys : List GExpr) (d : Dict K),
      List.foldl (maybeAdd (none : Option (UniqueArgs K))) d ys = d := by
  intro ys
  induction ys with
  | nil => intro d; rfl
  | cons e rest ih => intro d; simpa [maybeAdd] using ih d

/-- C9: deduplication sees only top-level yields.  Without dedup arguments
the dict is untouched; with them, the final dict is exactly the fold of
`add_unique` over the top-level yield sequence (so no proper subtree — the
recursive child enumerations are called without dedup arguments — is ever
added to or compared against `unique_dict`); and the yield sequence itself
is independent of the dedup arguments and the dict. -/
theorem enumerate_at_depth_top_level_dedup_only (g : Grammar) (K : Type)
    (depth : Nat) (lhs : List Char) (dict : Dict K) :
    (g.enumerate_at_depth K none depth lhs dict).2 = dict ∧
    (∀ ua : UniqueArgs K,
      (g.enumerate_at_depth K (some ua) depth lhs dict).2 =
        List.foldl (add_unique ua) dict
          ((g.enumerate_at_depth Unit none depth lhs []).1)) ∧
    ∀ u : Option (UniqueArgs K),
      (g.enumerate_at_depth K u depth lhs dict).1 =
        (g.enumerate_at_depth Unit none depth lhs []).1 := by
  refine ⟨?_, fun ua => ?_, fun u => ?_⟩
  · show (enumF g K none (depth + 1) depth lhs dict).2 = dict
    rw [enumF_eq]
    exact foldl_maybeAdd_none _ _
  · show (enumF g K (some ua) (depth + 1) depth lhs dict).2 =
      List.foldl (add_unique ua) dict
        ((enumF g Unit none (depth + 1) depth lhs []).1)
    rw [enumF_eq, enumF_eq]
    show List.foldl (maybeAdd (some ua)) dict (enumY g (depth + 1) depth lhs) =
      List.foldl (add_unique ua) dict (enumY g (depth + 1) depth lhs)
    induction enumY g (depth + 1) depth lhs generalizing dict with
    | nil => rfl
    | cons e rest ih => simpa [maybeAdd] using ih (add_unique ua dict e)
  · show (enumF g K u (depth + 1) depth lhs dict).1 =
      (enumF g Unit none (depth + 1) depth lhs []).1
    rw [enumF_eq, enumF_eq]

/-- No rule carries a present-but-empty rhs (on such a rule the source's
`max(())` raises `ValueError` during enumeration, and `is_terminal` is
inconsistent with "takes zero arguments"). -/
def Grammar.NoEmptyRhs (g : Grammar) : Prop :=
  ∀ p ∈ g.rulesByLhs, ∀ r ∈ p.2, r.rhs ≠ some []

instance (g : Grammar) : Decidable g.NoEmptyRhs := by
  unfold Grammar.NoEmptyRhs; infer_instance

theorem rulesFor_no_empty (g : Grammar) (hg : g.NoEmptyRhs)
    (lhs : List Char) : ∀ r ∈ g.rulesFor lhs, r.rhs ≠ some [] := by
  intro r hr
  unfold Grammar.rulesFor at hr
  cases hfind : g.rulesByLhs.find? (fun p => p.1 == lhs) with
  | none => rw [hfind] at hr; simp at hr
  | some p =>
      rw [hfind] at hr
      exact hg p (List.mem_of_find?_eq_some hfind) r hr

theorem listMax_le (b : Nat) : ∀ L : List Nat, (∀ x ∈ L, x ≤ b) →
    listMax L ≤ b := by
  intro L
  induction L with
  | nil => intro _; simp [listMax]
  | cons n ns ih =>
      intro h
      simp only [listMax, Nat.max_le]
      exact ⟨h n (by simp), ih (fun x hx => h x (by simp [hx]))⟩

theorem listMax_mem : ∀ L : List Nat, L ≠ [] → listMax L ∈ L := by
  intro L
  induction L with
  | nil => intro h; exact absurd rfl h
  | cons n ns ih =>
      intro _
      by_cases hn : ns = []
      · subst hn; simp [listMax]
      · rcases Nat.le_total n (listMax ns) with h | h
        · have : listMax (n :: ns) = listMax ns := by
            simp [listMax, Nat.max_eq_right h]
          rw [this]
          exact List.mem_cons_of_mem _ (ih hn)
        · have : listMax (n :: ns) = n := by
            simp [listMax, Nat.max_eq_left h]
          rw [this]; simp

theorem depthList_eq_map : ∀ cs : List GExpr,
    GExpr.depthList cs = cs.map GExpr.depth := by
  intro cs
  induction cs with
  | nil => rfl
  | cons c cs ih => simp [GExpr.depthList, ih]

theorem depthTuples_mem (depth : Nat) :
    ∀ (n : Nat) (ds : List Nat), ds ∈ depthTuples depth n ↔
      ds.length = n ∧ ∀ d ∈ ds, d < depth := by
  intro n
  induction n with
  | zero =>
      intro ds
      simp only [depthTuples, List.mem_singleton]
      constructor
      · rintro rfl; simp
      · intro ⟨h, _⟩; exact List.length_eq_zero.mp h
  | succ n ih =>
      intro ds
      simp only [depthTuples, mem_flatList, List.mem_map, List.mem_range]
      constructor
      · rintro ⟨i, hi, ds', hds', rfl⟩
        obtain ⟨hlen, hlt⟩ := (ih ds').mp hds'
        refine ⟨by simp [hlen], ?_⟩
        intro d hd
        rcases List.mem_cons.mp hd with rfl | hd
        · exact hi
        · exact hlt d hd
      · rintro ⟨hlen, hlt⟩
        cases ds with
        | nil => simp at hlen
        | cons d ds' =>
            refine ⟨d, hlt d (by simp), ds', ?_, rfl⟩
            refine (ih ds').mpr ⟨by simpa using hlen, ?_⟩
            intro x hx
            exact hlt x (by simp [hx])

theorem listProduct_mem {α : Type} :
    ∀ (Ls : List (List α)) (cs : List α), cs ∈ listProduct Ls ↔
      List.Forall₂ (fun x l => x ∈ l) cs Ls := by
  intro Ls
  induction Ls with
  | nil =>
      intro cs
      simp only [listProduct, List.mem_singleton]
      constructor
      · rintro rfl; exact List.Forall₂.nil
      · intro h; cases h; rfl
  | cons l ls ih =>
      intro cs
      simp only [listProduct, mem_flatList, List.mem_map]
      constructor
      · rintro ⟨x, hx, cs', hcs', rfl⟩
        exact List.Forall₂.cons hx ((ih cs').mp hcs')
      · intro h
        cases h with
        | cons hx hcs' =>
            rename_i x cs'
            exact ⟨x, hx, cs', (ih cs').mpr hcs', rfl⟩

/-- Exhaustive description of membership in one step of `enumY`. -/
theorem enumY_mem_cases (g : Grammar) (fuel depth : Nat) (lhs : List Char)
    (t : GExpr) (ht : t ∈ enumY g (fuel + 1) depth lhs) :
    (depth = 0 ∧ ∃ r ∈ g.rulesFor lhs, r.is_terminal = true ∧
      t = GExpr.leaf r.name r.func none) ∨
    (∃ r ∈ g.rulesFor lhs, ∃ rhs, r.rhs = some rhs ∧
      ∃ ds ∈ depthTuples depth rhs.length, depth - 1 ≤ listMax ds ∧
      ∃ cs, List.Forall₂ (fun c l => c ∈ l) cs
          ((ds.zip rhs).map (fun p => enumY g fuel p.1 p.2)) ∧
        t = GExpr.node r.name r.func none cs) := by
  rw [enumY, List.mem_append] at ht
  rcases ht with ht | ht
  · left
    by_cases hd : depth = 0
    · subst hd
      rw [if_pos rfl, mem_flatList] at ht
      obtain ⟨r, hr, hrt⟩ := ht
      refine ⟨rfl, r, hr, ?_⟩
      unfold termChunk at hrt
      by_cases hterm : r.is_terminal = true
      · rw [if_pos hterm] at hrt
        simpa [hterm] using List.mem_singleton.mp hrt
      · rw [if_neg hterm] at hrt; simp at hrt
    · rw [if_neg hd] at ht; simp at ht
  · right
    rw [mem_flatList] at ht
    obtain ⟨r, hr, hrt⟩ := ht
    unfold ruleChunk at hrt
    cases hrhs : r.rhs with
    | none => rw [hrhs] at hrt; simp at hrt
    | some rhs =>
        rw [hrhs] at hrt
        rw [mem_flatList] at hrt
        obtain ⟨ds, hds, hmem⟩ := hrt
        rw [List.mem_filter] at hds
        obtain ⟨cs, hcs, rfl⟩ := List.mem_map.mp hmem
        exact ⟨r, hr, rhs, hrhs, ds, hds.1, by simpa using hds.2,
          cs, (listProduct_mem _ _).mp hcs, rfl⟩

/-- Pointwise: children drawn from `enumY` at the depths `ds` have tree
depths exactly `ds` (relies on the per-element induction hypothesis). -/
theorem depthList_matches (g : Grammar) (fuel : Nat)
    (hIH : ∀ (depth : Nat) (lhs : List Char) (t : GExpr), depth < fuel →
      t ∈ enumY g fuel depth lhs → t.depth = depth) :
    ∀ (ds : List Nat) (rhs : List (List Char)) (cs : List GExpr),
      (∀ d ∈ ds, d < fuel) →
      List.Forall₂ (fun c l => c ∈ l) cs
        ((ds.zip rhs).map (fun p => enumY g fuel p.1 p.2)) →
      GExpr.depthList cs = ds.take rhs.length := by
  intro ds
  induction ds with
  | nil => intro rhs cs _ h; cases h; simp [GExpr.depthList]
  | cons d ds' ih =>
      intro rhs cs hlt h
      cases rhs with
      | nil =>
          cases h
          rfl
      | cons l rhs' =>
          simp only [List.zip_cons_cons, List.map_cons] at h
          cases h with
          | cons hc hcs' =>
              rename_i c cs'
              have hd : c.depth = d := hIH d l c (hlt d (by simp)) hc
              simp only [GExpr.depthList, hd, List.take]
              rw [ih rhs' cs' (fun x hx => hlt x (by simp [hx])) hcs']

/-- Every tree yielded by `enumY` at depth `d` has tree depth exactly `d`
(for grammars without empty-rhs rules). -/
theorem enumY_mem_depth (g : Grammar) (hg : g.NoEmptyRhs) :
    ∀ (fuel depth : Nat) (lhs : List Char) (t : GExpr), depth < fuel →
      t ∈ enumY g fuel depth lhs → t.depth = depth := by
  intro fuel
  induction fuel with
  | zero => intro depth _ _ h; omega
  | succ fuel ih =>
      intro depth lhs t hlt ht
      rcases enumY_mem_cases g fuel depth lhs t ht with
        ⟨rfl, r, _, _, rfl⟩ | ⟨r, hr, rhs, hrhs, ds, hds, htight, cs, hcs, rfl⟩
      · rfl
      · obtain ⟨hlen, hdlt⟩ := (depthTuples_mem depth rhs.length ds).mp hds
        have hrhs_ne : rhs ≠ [] := by
          intro hnil
          exact rulesFor_no_empty g hg lhs r hr (hnil ▸ hrhs)
        have hdep_pos : depth ≠ 0 := by
          intro h0
          subst h0
          cases rhs with
          | nil => exact hrhs_ne rfl
          | cons l rhs' =>
              have : ds.length = rhs'.length + 1 := by simpa using hlen
              cases ds with
              | nil => simp at this
              | cons d ds' => exact absurd (hdlt d (by simp)) (by omega)
        have hddl : GExpr.depthList cs = ds := by
          have := depthList_matches g fuel (fun d l t hd htm => ih d l t hd htm)
            ds rhs cs (fun d hd => lt_of_lt_of_le (hdlt d hd) (by omega)) hcs
          rw [← hlen, List.take_length] at this
          exact this
        have hmax : listMax ds = depth - 1 := by
          have h1 : listMax ds ≤ depth - 1 :=
            listMax_le _ ds (fun x hx => by have := hdlt x hx; omega)
          omega
        show 1 + listMax (GExpr.depthList cs) = depth
        rw [hddl, hmax]
        omega

/-- C4: at depth 0, `enumerate_at_depth` yields exactly one leaf per
terminal rule of `lhs` — the filtered rule list mapped to leaves, in rule
order — and every yielded tree has size 1 ("nothing else" is the stated
equality; non-terminal rules contribute no depth-0 tuples).  Requires
`NoEmptyRhs` because a present-but-empty rhs makes the source raise
`ValueError` (`max(())`) instead of finishing the depth-0 sweep. -/
theorem enumerate_at_depth_zero_terminals (g : Grammar) (K : Type)
    (u : Option (UniqueArgs K)) (lhs : List Char) (dict : Dict K)
    (hg : g.NoEmptyRhs) :
    (g.enumerate_at_depth K u 0 lhs dict).1 =
      ((g.rulesFor lhs).filter (fun r => r.is_terminal)).map
        (fun r => GExpr.leaf r.name r.func none) ∧
    ∀ t ∈ (g.enumerate_at_depth K u 0 lhs dict).1, t.size = 1 := by
  have hyield : (g.enumerate_at_depth K u 0 lhs dict).1 =
      ((g.rulesFor lhs).filter (fun r => r.is_terminal)).map
        (fun r => GExpr.leaf r.name r.func none) := by
    show (enumF g K u 1 0 lhs dict).1 = _
    rw [enumF_eq]
    show enumY g 1 0 lhs = _
    rw [enumY]
    have h2 : flatList (ruleChunk (enumY g 0) 0) (g.rulesFor lhs) = [] := by
      apply flatList_eq_nil
      intro r hr
      unfold ruleChunk
      cases hrhs : r.rhs with
      | none => rfl
      | some rhs =>
          cases rhs with
          | nil => exact absurd hrhs (rulesFor_no_empty g hg lhs r hr)
          | cons l rhs' =>
              dsimp only
              have hdt : depthTuples 0 (l :: rhs').length = [] := by
                simp [depthTuples, flatList]
              rw [hdt]
              rfl
    rw [h2, if_pos rfl, List.append_nil]
    induction g.rulesFor lhs with
    | nil => rfl
    | cons r rs ih =>
        by_cases hterm : r.is_terminal = true
        · simp [flatList, termChunk, hterm, ih]
        · simp [flatList, termChunk, hterm, ih]
  refine ⟨hyield, ?_⟩
  intro t ht
  rw [hyield] at ht
  obtain ⟨r, _, rfl⟩ := List.mem_map.mp ht
  rfl

/-- Witness for C4 on the scenario grammar: depth 0 yields exactly the two
terminal leaves. -/
theorem enumerate_at_depth_zero_terminals_witness :
    (gB.enumerate_at_depth Unit none 0 "B".toList []).1 =
      ((gB.rulesFor "B".toList).filter (fun r => r.is_terminal)).map
        (fun r => GExpr.leaf r.name r.func none) ∧
    ∀ t ∈ (gB.enumerate_at_depth Unit none 0 "B".toList []).1, t.size = 1 :=
  enumerate_at_depth_zero_terminals gB Unit none "B".toList [] (by decide)

/-- C2: at depth `d ≥ 1` every yielded tree is a node built from a
non-terminal rule of `lhs`, with one child per rhs symbol, every child of
tree depth at most `d - 1` and at least one child of tree depth exactly
`d - 1`; and a tree yielded at depth `d` is never yielded at any other
depth (so the sweep of `enumerate` yields it at exactly one depth). -/
theorem enumerate_at_depth_partition (g : Grammar) (K : Type)
    (u : Option (UniqueArgs K)) (d : Nat) (lhs : List Char) (dict : Dict K)
    (t : GExpr) (hg : g.NoEmptyRhs) (hd : 1 ≤ d)
    (ht : t ∈ (g.enumerate_at_depth K u d lhs dict).1) :
    (∃ r ∈ g.rulesFor lhs, ∃ rhs cs, r.rhs = some rhs ∧
      t = GExpr.node r.name r.func none cs ∧ cs.length = rhs.length ∧
      (∀ c ∈ cs, c.depth ≤ d - 1) ∧ ∃ c ∈ cs, c.depth = d - 1) ∧
    ∀ (K' : Type) (u' : Option (UniqueArgs K')) (d' : Nat) (dict' : Dict K'),
      t ∈ (g.enumerate_at_depth K' u' d' lhs dict').1 → d' = d := by
  have hyt : t ∈ enumY g (d + 1) d lhs := by
    have h1 : (g.enumerate_at_depth K u d lhs dict).1 = enumY g (d + 1) d lhs := by
      show (enumF g K u (d + 1) d lhs dict).1 = _
      rw [enumF_eq]
    rwa [h1] at ht
  constructor
  · rcases enumY_mem_cases g d d lhs t hyt with
      ⟨rfl, _⟩ | ⟨r, hr, rhs, hrhs, ds, hds, htight, cs, hcs, rfl⟩
    · omega
    · obtain ⟨hlen, hdlt⟩ := (depthTuples_mem d rhs.length ds).mp hds
      have hddl : GExpr.depthList cs = ds := by
        have := depthList_matches g d
          (fun dep l t hdep htm => enumY_mem_depth g hg d dep l t hdep htm)
          ds rhs cs (fun x hx => hdlt x hx) hcs
        rw [← hlen, List.take_length] at this
        exact this
      have hcslen : cs.length = rhs.length := by
        have := List.Forall₂.length_eq hcs
        rw [this, List.length_map, List.length_zip, hlen]
        exact Nat.min_self _
      refine ⟨r, hr, rhs, cs, hrhs, rfl, hcslen, ?_, ?_⟩
      · intro c hc
        have : c.depth ∈ ds := by
          rw [← hddl, depthList_eq_map]
          exact List.mem_map_of_mem _ hc
        have := hdlt _ this
        omega
      · have hds_ne : ds ≠ [] := by
          intro hnil
          rw [hnil] at hlen
          have : rhs = [] := List.length_eq_zero.mp hlen.symm
          exact rulesFor_no_empty g hg lhs r hr (this ▸ hrhs)
        have hmax_mem : listMax ds ∈ ds := listMax_mem ds hds_ne
        have hmax_eq : listMax ds = d - 1 := by
          have h1 : listMax ds ≤ d - 1 :=
            listMax_le _ ds (fun x hx => by have := hdlt x hx; omega)
          omega
        rw [← hddl, depthList_eq_map] at hmax_mem
        obtain ⟨c, hc, hcd⟩ := List.mem_map.mp hmax_mem
        exact ⟨c, hc, by rw [hcd, ← depthList_eq_map, hddl, hmax_eq]⟩
  · intro K' u' d' dict' ht'
    have hyt' : t ∈ enumY g (d' + 1) d' lhs := by
      have h1 : (g.enumerate_at_depth K' u' d' lhs dict').1 =
          enumY g (d' + 1) d' lhs := by
        show (enumF g K' u' (d' + 1) d' lhs dict').1 = _
        rw [enumF_eq]
      rwa [h1] at ht'
    have e1 := enumY_mem_depth g hg (d + 1) d lhs t (by omega) hyt
    have e2 := enumY_mem_depth g hg (d' + 1) d' lhs t (by omega) hyt'
    omega

/-- Witness for C2: `AND(T1, T1)` is yielded at depth 1 by the scenario
grammar. -/
theorem enumerate_at_depth_partition_witness :
    (∃ r ∈ gB.rulesFor "B".toList, ∃ rhs cs, r.rhs = some rhs ∧
      GExpr.node "AND".toList 3 none
          [GExpr.leaf "T1".toList 1 none, GExpr.leaf "T1".toList 1 none] =
        GExpr.node r.name r.func none cs ∧ cs.length = rhs.length ∧
      (∀ c ∈ cs, c.depth ≤ 1 - 1) ∧ ∃ c ∈ cs, c.depth = 1 - 1) ∧
    ∀ (K' : Type) (u' : Option (UniqueArgs K')) (d' : Nat) (dict' : Dict K'),
      GExpr.node "AND".toList 3 none
          [GExpr.leaf "T1".toList 1 none, GExpr.leaf "T1".toList 1 none] ∈
        (gB.enumerate_at_depth K' u' d' "B".toList dict').1 → d' = 1 :=
  enumerate_at_depth_partition gB Unit none 1 "B".toList []
    (GExpr.node "AND".toList 3 none
      [GExpr.leaf "T1".toList 1 none, GExpr.leaf "T1".toList 1 none])
    (by decide) (by decide) (by decide)

/-! ### C3 — deduplication minimality -/

theorem find?_congr {α : Type} (p q : α → Bool) :
    ∀ l : List α, (∀ x ∈ l, p x = q x) → l.find? p = l.find? q := by
  intro l
  induction l with
  | nil => intro _; rfl
  | cons x xs ih =>
      intro h
      rw [List.find?_cons, List.find?_cons, h x (by simp)]
      cases q x with
      | true => rfl
      | false => exact ih (fun y hy => h y (by simp [hy]))

theorem dictLookup_nil {K : Type} (keq : K → K → Bool) (k : K) :
    dictLookup keq k [] = none := rfl

theorem dictLookup_cons {K : Type} (keq : K → K → Bool) (k : K)
    (p : K × GExpr) (rest : Dict K) :
    dictLookup keq k (p :: rest) =
      (if keq p.1 k = true then some p.2 else dictLookup keq k rest) := by
  unfold dictLookup
  rw [List.find?_cons]
  cases h : keq p.1 k with
  | true => rfl
  | false => rfl

/-- Keys equal under a symmetric-transitive `keyEq` look up the same
entry. -/
theorem dictLookup_class {K : Type} (keq : K → K → Bool)
    (hsym : ∀ a b, keq a b = keq b a)
    (htr : ∀ a b c, keq a b = true → keq b c = true → keq a c = true)
    (k1 k2 : K) (hk : keq k1 k2 = true) (d : Dict K) :
    dictLookup keq k1 d = dictLookup keq k2 d := by
  unfold dictLookup
  rw [find?_congr _ _ d ?_]
  intro p _
  by_cases h1 : keq p.1 k1 = true
  · rw [h1, htr _ _ _ h1 hk]
  · by_cases h2 : keq p.1 k2 = true
    · have hk' : keq k2 k1 = true := by rw [← hsym]; exact hk
      exact absurd (htr _ _ _ h2 hk') h1
    · rw [Bool.not_eq_true] at h1 h2
      rw [h1, h2]

theorem dictLookup_append_some {K : Type} (keq : K → K → Bool) (k : K)
    (v : GExpr) (x : K × GExpr) :
    ∀ d : Dict K, dictLookup keq k d = some v →
      dictLookup keq k (d ++ [x]) = some v := by
  intro d
  induction d with
  | nil => intro h; rw [dictLookup_nil] at h; cases h
  | cons p rest ih =>
      intro h
      rw [dictLookup_cons] at h
      rw [List.cons_append, dictLookup_cons]
      by_cases hkp : keq p.1 k = true
      · rw [if_pos hkp] at h ⊢; exact h
      · rw [if_neg hkp] at h ⊢; exact ih h

theorem dictLookup_append_of_none {K : Type} (keq : K → K → Bool) (k k0 : K)
    (v : GExpr) :
    ∀ d : Dict K, dictLookup keq k d = none →
      dictLookup keq k (d ++ [(k0, v)]) =
        (if keq k0 k = true then some v else none) := by
  intro d
  induction d with
  | nil => intro _; rw [List.nil_append, dictLookup_cons, dictLookup_nil]
  | cons p rest ih =>
      intro h
      rw [dictLookup_cons] at h
      rw [List.cons_append, dictLookup_cons]
      by_cases hkp : keq p.1 k = true
      · rw [if_pos hkp] at h; cases h
      · rw [if_neg hkp] at h ⊢; exact ih h

theorem dictUpdate_lookup_class {K : Type} (keq : K → K → Bool)
    (hsym : ∀ a b, keq a b = keq b a)
    (htr : ∀ a b c, keq a b = true → keq b c = true → keq a c = true)
    (k0 k' : K) (hk : keq k0 k' = true) (w : GExpr) :
    ∀ d : Dict K, dictLookup keq k' (dictUpdate keq k0 w d) =
      (dictLookup keq k' d).map (fun _ => w) := by
  intro d
  induction d with
  | nil => rfl
  | cons p rest ih =>
      by_cases hp : keq p.1 k0 = true
      · have hp' : keq p.1 k' = true := htr _ _ _ hp hk
        unfold dictUpdate
        rw [if_pos hp, dictLookup_cons, dictLookup_cons]
        simp only [hp']
        rfl
      · have hp' : keq p.1 k' = false := by
          by_contra hcon
          rw [Bool.not_eq_false] at hcon
          have hk' : keq k' k0 = true := by rw [hsym]; exact hk
          exact hp (htr _ _ _ hcon hk')
        unfold dictUpdate
        rw [if_neg (by simp [hp]), dictLookup_cons, dictLookup_cons, hp']
        simp only [if_false, Bool.false_eq_true]
        exact ih

theorem dictUpdate_lookup_not_class {K : Type} (keq : K → K → Bool)
    (hsym : ∀ a b, keq a b = keq b a)
    (htr : ∀ a b c, keq a b = true → keq b c = true → keq a c = true)
    (k0 k' : K) (hk : keq k0 k' = false) (w : GExpr) :
    ∀ d : Dict K, dictLookup keq k' (dictUpdate keq k0 w d) =
      dictLookup keq k' d := by
  intro d
  induction d with
  | nil => rfl
  | cons p rest ih =>
      by_cases hp : keq p.1 k0 = true
      · have hp' : keq p.1 k' = false := by
          by_contra hcon
          rw [Bool.not_eq_false] at hcon
          have h1 : keq k0 p.1 = true := by rw [hsym]; exact hp
          have : keq k0 k' = true := htr _ _ _ h1 hcon
          rw [this] at hk; cases hk
        unfold dictUpdate
        rw [if_pos hp, dictLookup_cons, dictLookup_cons, hp']
        simp only [if_false, Bool.false_eq_true]
      · unfold dictUpdate
        rw [if_neg (by simp [hp]), dictLookup_cons, dictLookup_cons]
        by_cases hp' : keq p.1 k' = true
        · rw [if_pos hp', if_pos hp']
        · rw [if_neg hp', if_neg hp']; exact ih

/-- `add_unique` on a missing key appends a fresh entry. -/
theorem add_unique_absent {K : Type} (ua : UniqueArgs K) (d : Dict K)
    (e : GExpr) (h : dictLookup ua.keyEq (ua.unique_key e) d = none) :
    add_unique ua d e = d ++ [(ua.unique_key e, e)] := by
  simp [add_unique, h]

/-- `add_unique` on a strictly better expression replaces the value. -/
theorem add_unique_better {K : Type} (ua : UniqueArgs K) (d : Dict K)
    (e v : GExpr) (h : dictLookup ua.keyEq (ua.unique_key e) d = some v)
    (hc : ua.compare_func e v = true) :
    add_unique ua d e = dictUpdate ua.keyEq (ua.unique_key e) e d := by
  simp [add_unique, h, hc]

/-- `add_unique` keeps the incumbent when the new expression does not
compare strictly better (the first-seen-wins tie break of C3). -/
theorem add_unique_keep {K : Type} (ua : UniqueArgs K) (d : Dict K)
    (e v : GExpr) (h : dictLookup ua.keyEq (ua.unique_key e) d = some v)
    (hc : ua.compare_func e v = false) :
    add_unique ua d e = d := by
  simp [add_unique, h, hc]

/-- Right after `add_unique ua d e`, the key of `e` maps to a value that
`e` does not strictly beat (either `e` itself, or an incumbent that
survived the comparison). -/
theorem add_unique_found {K : Type} (ua : UniqueArgs K)
    (hrefl : ∀ a, ua.keyEq a a = true)
    (hsym : ∀ a b, ua.keyEq a b = ua.keyEq b a)
    (htr : ∀ a b c, ua.keyEq a b = true → ua.keyEq b c = true →
      ua.keyEq a c = true)
    (hirr : ∀ a, ua.compare_func a a = false) (d : Dict K) (e : GExpr) :
    ∃ v, dictLookup ua.keyEq (ua.unique_key e) (add_unique ua d e) = some v ∧
      ua.compare_func e v = false := by
  cases hl : dictLookup ua.keyEq (ua.unique_key e) d with
  | none =>
      refine ⟨e, ?_, hirr e⟩
      rw [add_unique_absent ua d e hl,
          dictLookup_append_of_none ua.keyEq _ _ _ d hl, if_pos (hrefl _)]
  | some v =>
      by_cases hc : ua.compare_func e v = true
      · refine ⟨e, ?_, hirr e⟩
        rw [add_unique_better ua d e v hl hc,
            dictUpdate_lookup_class ua.keyEq hsym htr _ _ (hrefl _) e d, hl]
        rfl
      · rw [Bool.not_eq_true] at hc
        rw [add_unique_keep ua d e v hl hc]
        exact ⟨v, hl, hc⟩

/-- Persistence: once every key in `e`'s class maps to a value `e` does
not beat, further `add_unique` folds keep that true (transitivity of the
comparison carries the bound through replacements). -/
theorem dedup_persist {K : Type} (ua : UniqueArgs K)
    (hsym : ∀ a b, ua.keyEq a b = ua.keyEq b a)
    (htr : ∀ a b c, ua.keyEq a b = true → ua.keyEq b c = true →
      ua.keyEq a c = true)
    (hcmptr : ∀ a b c, ua.compare_func a b = true →
      ua.compare_func b c = true → ua.compare_func a c = true) (e : GExpr) :
    ∀ (ys : List GExpr) (d : Dict K),
      (∀ k', ua.keyEq (ua.unique_key e) k' = true →
        ∃ v, dictLookup ua.keyEq k' d = some v ∧
          ua.compare_func e v = false) →
      ∀ k r,
        dictLookup ua.keyEq k (List.foldl (add_unique ua) d ys) = some r →
        ua.keyEq (ua.unique_key e) k = true → ua.compare_func e r = false := by
  intro ys
  induction ys with
  | nil =>
      intro d hP k r hlook hk
      obtain ⟨v, hv, hcmp⟩ := hP k hk
      rw [List.foldl_nil] at hlook
      rw [hv] at hlook
      cases hlook
      exact hcmp
  | cons t rest ih =>
      intro d hP k r hlook hk
      rw [List.foldl_cons] at hlook
      refine ih (add_unique ua d t) ?_ k r hlook hk
      intro k' hk'
      obtain ⟨v, hv, hcmp⟩ := hP k' hk'
      cases hl : dictLookup ua.keyEq (ua.unique_key t) d with
      | none =>
          rw [add_unique_absent ua d t hl]
          exact ⟨v, dictLookup_append_some ua.keyEq k' v _ d hv, hcmp⟩
      | some w =>
          by_cases hc : ua.compare_func t w = true
          · rw [add_unique_better ua d t w hl hc]
            by_cases hclass : ua.keyEq (ua.unique_key t) k' = true
            · refine ⟨t, ?_, ?_⟩
              · rw [dictUpdate_lookup_class ua.keyEq hsym htr _ _ hclass t d,
                    hv]
                rfl
              · have hwv : w = v := by
                  have hEq := dictLookup_class ua.keyEq hsym htr _ _ hclass d
                  rw [hl, hv] at hEq
                  cases hEq
                  rfl
                subst hwv
                by_cases hce : ua.compare_func e t = true
                · exact absurd (hcmptr e t w hce hc) (by simp [hcmp])
                · simpa using hce
            · refine ⟨v, ?_, hcmp⟩
              rw [dictUpdate_lookup_not_class ua.keyEq hsym htr _ _
                    (by simpa using hclass) t d]
              exact hv
          · rw [Bool.not_eq_true] at hc
            rw [add_unique_keep ua d t w hl hc]
            exact ⟨v, hv, hcmp⟩

/-- Invariant of the dedup fold: every stored representative is unbeaten
by any processed expression of its key class. -/
theorem dedup_minimal_fold {K : Type} (ua : UniqueArgs K)
    (hrefl : ∀ a, ua.keyEq a a = true)
    (hsym : ∀ a b, ua.keyEq a b = ua.keyEq b a)
    (htr : ∀ a b c, ua.keyEq a b = true → ua.keyEq b c = true →
      ua.keyEq a c = true)
    (hirr : ∀ a, ua.compare_func a a = false)
    (hcmptr : ∀ a b c, ua.compare_func a b = true →
      ua.compare_func b c = true → ua.compare_func a c = true) :
    ∀ (ys : List GExpr) (d : Dict K) (k : K) (r : GExpr),
      dictLookup ua.keyEq k (List.foldl (add_unique ua) d ys) = some r →
      ∀ t ∈ ys, ua.keyEq (ua.unique_key t) k = true →
        ua.compare_func t r = false := by
  intro ys
  induction ys with
  | nil => intro d k r _ t ht; simp at ht
  | cons e rest ih =>
      intro d k r hlook t ht hk
      rw [List.foldl_cons] at hlook
      rcases List.mem_cons.mp ht with rfl | htmem
      · refine dedup_persist ua hsym htr hcmptr t rest (add_unique ua d t)
          ?_ k r hlook hk
        intro k' hk'
        obtain ⟨v, hv, hcmp⟩ :=
          add_unique_found ua hrefl hsym htr hirr d t
        refine ⟨v, ?_, hcmp⟩
        rw [dictLookup_class ua.keyEq hsym htr k' (ua.unique_key t)
              (by rw [hsym]; exact hk') (add_unique ua d t)]
        exact hv
      · exact ih (add_unique ua d e) k r hlook t htmem hk

/-- The dict flows through the whole sweep as a fold of the per-yield
update. -/
theorem enumSweep_eq (g : Grammar) (K : Type) (u : Option (UniqueArgs K))
    (lhs : List Char) :
    ∀ (ns : List Nat) (dict : Dict K),
      enumSweep g K u lhs ns dict =
        (flatList (fun n => enumY g (n + 1) n lhs) ns,
         List.foldl (maybeAdd u) dict
           (flatList (fun n => enumY g (n + 1) n lhs) ns)) := by
  intro ns
  induction ns with
  | nil => intro dict; rfl
  | cons n ns ih =>
      intro dict
      show
        (let p := g.enumerate_at_depth K u n lhs dict
         let q := enumSweep g K u lhs ns p.2
         (p.1 ++ q.1, q.2)) = _
      simp only [Grammar.enumerate_at_depth, enumF_eq, ih]
      simp [flatList, List.foldl_append]

theorem foldl_maybeAdd_some {K : Type} (ua : UniqueArgs K) :
    ∀ (ys : List GExpr) (d : Dict K),
      List.foldl (maybeAdd (some ua)) d ys =
        List.foldl (add_unique ua) d ys := by
  intro ys
  induction ys with
  | nil => intro d; rfl
  | cons e rest ih => intro d; simpa [maybeAdd] using ih (add_unique ua d e)

/-- The dict produced by an `enumerate` sweep is the `add_unique` fold of
the pure yield sequence. -/
theorem enumerate_dict_eq (g : Grammar) (K : Type) (ua : UniqueArgs K)
    (D : Nat) (lhs : List Char) (d0 : Dict K) :
    (g.enumerate K (some ua) D lhs d0).2 =
      List.foldl (add_unique ua) d0 (g.enumYields D lhs) := by
  show (enumSweep g K (some ua) lhs (List.range D) d0).2 =
    List.foldl (add_unique ua) d0
      ((enumSweep g Unit none lhs (List.range D) []).1)
  rw [enumSweep_eq, enumSweep_eq, foldl_maybeAdd_some]

/-- C3 counterexample: with `compare_func = lambda a, b: True` (a legal
caller argument), the stored representative for the shared key is the last
enumerated tree, and an earlier tree of the same key still "compares
strictly better" — so the claim, quantified over every `compare_func`,
fails. -/
def uaConst : UniqueArgs Nat := ⟨fun a b => a == b, fun _ => 0, fun _ _ => true⟩

/-- C3 is false for arbitrary `compare_func`: concrete refutation. -/
theorem enumerate_dedup_not_minimal_for_every_compare :
    dictLookup uaConst.keyEq 0
        (gB.enumerate Nat (some uaConst) 1 "B".toList []).2 =
      some (GExpr.leaf "T2".toList 2 none) ∧
    GExpr.leaf "T1".toList 1 none ∈ gB.enumYields 1 "B".toList ∧
    uaConst.keyEq (uaConst.unique_key (GExpr.leaf "T1".toList 1 none)) 0 =
      true ∧
    uaConst.compare_func (GExpr.leaf "T1".toList 1 none)
      (GExpr.leaf "T2".toList 2 none) = true := by
  decide

/-- C3 (amended): provided the dict's key equality is an equivalence
(reflexivity is automatic for a Python dict, which compares keys by
identity-or-`__eq__`) and `compare_func` is irreflexive and transitive (a
strict order, as every intended "strictly better" comparison is), then
after running `enumerate` to depth `D` with a `unique_dict`, every key
present maps to a representative no enumerated tree of the same key beats
strictly; and on an equal comparison the incumbent — the first enumerated —
is retained (`add_unique` leaves the dict unchanged). -/
theorem enumerate_dedup_minimal (g : Grammar) (K : Type) (ua : UniqueArgs K)
    (D : Nat) (lhs : List Char) (d0 : Dict K)
    (hrefl : ∀ a, ua.keyEq a a = true)
    (hsym : ∀ a b, ua.keyEq a b = ua.keyEq b a)
    (htr : ∀ a b c, ua.keyEq a b = true → ua.keyEq b c = true →
      ua.keyEq a c = true)
    (hirr : ∀ a, ua.compare_func a a = false)
    (hcmptr : ∀ a b c, ua.compare_func a b = true →
      ua.compare_func b c = true → ua.compare_func a c = true) :
    (∀ k r,
      dictLookup ua.keyEq k (g.enumerate K (some ua) D lhs d0).2 = some r →
      ∀ t ∈ g.enumYields D lhs, ua.keyEq (ua.unique_key t) k = true →
        ua.compare_func t r = false) ∧
    (∀ (d : Dict K) (e v : GExpr),
      dictLookup ua.keyEq (ua.unique_key e) d = some v →
      ua.compare_func e v = false → add_unique ua d e = d) := by
  constructor
  · intro k r hlook t ht hk
    rw [enumerate_dict_eq] at hlook
    exact dedup_minimal_fold ua hrefl hsym htr hirr hcmptr
      (g.enumYields D lhs) d0 k r hlook t ht hk
  · intro d e v hfound hcmp
    exact add_unique_keep ua d e v hfound hcmp

/-- Witness for the amended C3: the size-compare pack `uaName` (key
equality is list equality; comparison is strict size order) on the
scenario grammar at depth 2. -/
theorem enumerate_dedup_minimal_witness :
    (∀ k r,
      dictLookup uaName.keyEq k
          (gB.enumerate (List Char) (some uaName) 2 "B".toList []).2 =
        some r →
      ∀ t ∈ gB.enumYields 2 "B".toList,
        uaName.keyEq (uaName.unique_key t) k = true →
          uaName.compare_func t r = false) ∧
    (∀ (d : Dict (List Char)) (e v : GExpr),
      dictLookup uaName.keyEq (uaName.unique_key e) d = some v →
      uaName.compare_func e v = false → add_unique uaName d e = d) :=
  enumerate_dedup_minimal gB (List Char) uaName 2 "B".toList []
    (fun a => by simp [uaName])
    (fun a b => by
      by_cases h : a = b
      · simp [uaName, h]
      · have h' : ¬ b = a := fun hh => h hh.symm
        simp [uaName, h, h'])
    (fun a b c hab hbc => by
      simp only [uaName, beq_iff_eq] at *
      exact hab.trans hbc)
    (fun a => by simp [uaName])
    (fun a b c hab hbc => by
      simp only [uaName, decide_eq_true_eq] at *
      omega)

/-! ### C7 — malformed input makes `parse` fail -/

/-- The rule name a token refers to, if any, mirroring the classification
inside the parse loop: an opener token refers to the name before the
opener, a bare delimiter/closer token refers to none, any other token is
itself a referenced name. -/
def tokenNameOf (op cl dl : Char) (tk : List Char) : Option (List Char) :=
  match (pyStrip tk).getLast? with
  | none => none
  | some last =>
      if last = op then some (pyStrip tk).dropLast
      else if pyStrip tk = [dl] || pyStrip tk = [cl] then none
      else some (pyStrip tk)

/-- A successful `parseStep` looked up — and found — the rule name its
token references (if any). -/
theorem parseStep_ok_name (g : Grammar) (op cl dl : Char) (tk : List Char)
    (stack s' : List GExpr) (h : parseStep g op cl dl tk stack = .ok s') :
    ∀ nm, tokenNameOf op cl dl tk = some nm →
      (g.lookupName nm).isSome = true := by
  intro nm hnm
  unfold parseStep at h
  unfold tokenNameOf at hnm
  repeat' split at h
  all_goals repeat' split at hnm
  all_goals try simp_all
  all_goals repeat' split at h
  all_goals simp_all

/-- A successful run of the token loop looked up — and found — every rule
name referenced by any processed token. -/
theorem parseTokens_ok_known (g : Grammar) (op cl dl : Char) :
    ∀ (ts : List (List Char)) (stack st : List GExpr),
      parseTokens g op cl dl ts stack = .ok st →
      ∀ tk ∈ ts, ∀ nm, tokenNameOf op cl dl tk = some nm →
        (g.lookupName nm).isSome = true := by
  intro ts
  induction ts with
  | nil => intro stack st _ tk htk; simp at htk
  | cons tk0 rest ih =>
      intro stack st h tk htk nm hnm
      have h' : (match parseStep g op cl dl tk0 stack with
          | .error e => Except.error e
          | .ok stack' => parseTokens g op cl dl rest stack') =
          Except.ok st := h
      cases hstep : parseStep g op cl dl tk0 stack with
      | error e => rw [hstep] at h'; cases h'
      | ok stack' =>
          rw [hstep] at h'
          rcases List.mem_cons.mp htk with rfl | hmem
          · exact parseStep_ok_name g op cl dl tk stack stack' hstep nm hnm
          · exact ih stack' st h' tk hmem nm hnm



/-! ### C1 — round trip of the canonical string form through parse -/

/-- A character legal inside a rule name for lossless round-tripping with
the default delimiters: not an opener/closer/delimiter (spec §6: delimiter
characters "must not collide with rule-name characters") and not
whitespace (`parse` strips tokens and the tokenizer eats whitespace after
a delimiter). -/
def goodChar (c : Char) : Prop :=
  c ≠ '(' ∧ c ≠ ')' ∧ c ≠ ',' ∧ pySpace c = false

instance (c : Char) : Decidable (goodChar c) := by
  unfold goodChar; infer_instance

/-- A usable rule name: nonempty and made of `goodChar`s (the formal
reading of the claim's "self-consistent rule names"). -/
def goodName (nm : List Char) : Prop := nm ≠ [] ∧ ∀ c ∈ nm, goodChar c

instance (nm : List Char) : Decidable (goodName nm) := by
  unfold goodName; infer_instance

theorem takeWhile_app_stop {α : Type} (p : α → Bool) :
    ∀ (l1 : List α) (b : α) (l2 : List α), (∀ c ∈ l1, p c = true) →
      p b = false →
      (l1 ++ b :: l2).takeWhile p = l1 ∧
        (l1 ++ b :: l2).dropWhile p = b :: l2 := by
  intro l1
  induction l1 with
  | nil =>
      intro b l2 _ hb
      simp [List.takeWhile, List.dropWhile, hb]
  | cons a l ih =>
      intro b l2 h hb
      have ha : p a = true := h a (by simp)
      have hrec := ih b l2 (fun c hc => h c (by simp [hc])) hb
      simp [List.takeWhile, List.dropWhile, ha, hrec.1, hrec.2]

theorem takeWhile_all_true {α : Type} (p : α → Bool) :
    ∀ l : List α, (∀ c ∈ l, p c = true) →
      l.takeWhile p = l ∧ l.dropWhile p = [] := by
  intro l
  induction l with
  | nil => intro _; simp
  | cons a l ih =>
      intro h
      have ha : p a = true := h a (by simp)
      have hrec := ih (fun c hc => h c (by simp [hc]))
      simp [List.takeWhile, List.dropWhile, ha, hrec.1, hrec.2]

theorem dropWhile_all_false {α : Type} (p : α → Bool) :
    ∀ l : List α, (∀ c ∈ l, p c = false) → l.dropWhile p = l := by
  intro l
  induction l with
  | nil => intro _; rfl
  | cons a l ih =>
      intro h
      have ha : p a = false := h a (by simp)
      simp [List.dropWhile, ha]

/-- Stripping a whitespace-free token is the identity. -/
theorem pyStrip_no_space (l : List Char) (h : ∀ c ∈ l, pySpace c = false) :
    pyStrip l = l := by
  unfold pyStrip
  rw [dropWhile_all_false pySpace l h,
      dropWhile_all_false pySpace l.reverse
        (fun c hc => h c (List.mem_reverse.mp hc)),
      List.reverse_reverse]

theorem tokenize_nil (op cl dl : Char) : tokenize op cl dl [] = [] := by
  rw [tokenize.eq_def]

theorem tokenize_close (rest : List Char) :
    tokenize '(' ')' ',' (')' :: rest) = [')'] :: tokenize '(' ')' ',' rest := by
  rw [tokenize_cons]
  simp

theorem tokenize_delim_nospace (rest : List Char)
    (h : ∀ x ∈ rest.head?, pySpace x = false) :
    tokenize '(' ')' ',' (',' :: rest) = [','] :: tokenize '(' ')' ',' rest := by
  rw [tokenize_cons]
  have h1 : rest.takeWhile pySpace = [] ∧ rest.dropWhile pySpace = rest := by
    cases rest with
    | nil => simp
    | cons x r =>
        have hx : pySpace x = false := h x (by simp)
        simp [List.takeWhile, List.dropWhile, hx]
  simp [h1.1, h1.2]

theorem tokenize_delim_space (rest : List Char)
    (h : ∀ x ∈ rest.head?, pySpace x = false) :
    tokenize '(' ')' ',' (',' :: ' ' :: rest) =
      [',', ' '] :: tokenize '(' ')' ',' rest := by
  rw [tokenize_cons]
  have h1 : rest.takeWhile pySpace = [] ∧ rest.dropWhile pySpace = rest := by
    cases rest with
    | nil => simp
    | cons x r =>
        have hx : pySpace x = false := h x (by simp)
        simp [List.takeWhile, List.dropWhile, hx]
  have h2 : (' ' :: rest).takeWhile pySpace = [' '] := by
    simp [List.takeWhile, pySpace, h1.1]
  have h3 : (' ' :: rest).dropWhile pySpace = rest := by
    simp [List.dropWhile, pySpace, h1.2]
  simp [h2, h3]

/-- A good name directly followed by an opener tokenizes to the fused
`name(` token. -/
theorem tokenize_name_open (nm rest : List Char) (hg : goodName nm) :
    tokenize '(' ')' ',' (nm ++ '(' :: rest) =
      (nm ++ ['(']) :: tokenize '(' ')' ',' rest := by
  obtain ⟨hne, hchars⟩ := hg
  cases nm with
  | nil => exact absurd rfl hne
  | cons c nm' =>
      have hc := hchars c (by simp)
      have hall : ∀ x ∈ nm', nameChar '(' ')' ',' x = true := by
        intro x hx
        have := hchars x (by simp [hx])
        simp [nameChar, this.1, this.2.1, this.2.2.1]
      have hstop : nameChar '(' ')' ',' '(' = false := by simp [nameChar]
      have hsplit := takeWhile_app_stop (nameChar '(' ')' ',') nm' '(' rest
        hall hstop
      rw [List.cons_append, tokenize_cons,
          if_neg hc.2.1, if_neg hc.2.2.1, if_neg hc.1,
          hsplit.1, hsplit.2]
      simp

/-- A good name followed by nothing, a delimiter, or a closer tokenizes to
a bare name token. -/
theorem tokenize_name_stop (nm rest : List Char) (hg : goodName nm)
    (hrest : rest = [] ∨ (∃ r', rest = ',' :: r') ∨ ∃ r', rest = ')' :: r') :
    tokenize '(' ')' ',' (nm ++ rest) = nm :: tokenize '(' ')' ',' rest := by
  obtain ⟨hne, hchars⟩ := hg
  cases nm with
  | nil => exact absurd rfl hne
  | cons c nm' =>
      have hc := hchars c (by simp)
      have hall : ∀ x ∈ nm', nameChar '(' ')' ',' x = true := by
        intro x hx
        have := hchars x (by simp [hx])
        simp [nameChar, this.1, this.2.1, this.2.2.1]
      rcases hrest with rfl | ⟨r', rfl⟩ | ⟨r', rfl⟩
      · have hsplit := takeWhile_all_true (nameChar '(' ')' ',') nm' hall
        rw [List.append_nil, tokenize_cons,
            if_neg hc.2.1, if_neg hc.2.2.1, if_neg hc.1,
            hsplit.1, hsplit.2, tokenize_nil]
        simp
      · have hstop : nameChar '(' ')' ',' ',' = false := by simp [nameChar]
        have hsplit := takeWhile_app_stop (nameChar '(' ')' ',') nm' ',' r'
          hall hstop
        rw [List.cons_append, tokenize_cons,
            if_neg hc.2.1, if_neg hc.2.2.1, if_neg hc.1,
            hsplit.1, hsplit.2]
        simp
      · have hstop : nameChar '(' ')' ',' ')' = false := by simp [nameChar]
        have hsplit := takeWhile_app_stop (nameChar '(' ')' ',') nm' ')' r'
          hall hstop
        rw [List.cons_append, tokenize_cons,
            if_neg hc.2.1, if_neg hc.2.2.1, if_neg hc.1,
            hsplit.1, hsplit.2]
        simp

mutual

/-- The token sequence the tokenizer produces from a canonical string:
`[name]` for a leaf; the fused `name(` token, the separated child tokens,
and a closer token for a node. -/
def tokensOf : GExpr → List (List Char)
  | .leaf n _ _ => [n]
  | .node n _ _ cs => (n ++ ['(']) :: (sepTokens cs ++ [[')']])

/-- Child token sequences joined by the `", "` delimiter token. -/
def sepTokens : List GExpr → List (List Char)
  | [] => []
  | [c] => tokensOf c
  | c :: cs => tokensOf c ++ [',', ' '] :: sepTokens cs

end

/-- Trees that the grammar can account for: every node's rule name is
good (round-trippable), is found in the name index, and carries that
rule's function; internal nodes have at least one child and `form` is
absent everywhere (as in every constructing code path). -/
inductive TreeOK (g : Grammar) : GExpr → Prop where
  | leafOK : ∀ nm r, goodName nm → g.lookupName nm = some r →
      TreeOK g (GExpr.leaf nm r.func none)
  | nodeOK : ∀ nm r cs, goodName nm → g.lookupName nm = some r → cs ≠ [] →
      (∀ c ∈ cs, TreeOK g c) → TreeOK g (GExpr.node nm r.func none cs)

/-- The canonical string of an accounted tree starts with a name
character (never whitespace or a delimiter). -/
theorem canStr_head (g : Grammar) (t : GExpr) (hok : TreeOK g t) :
    ∃ x r', t.canStr = x :: r' ∧ pySpace x = false := by
  cases hok with
  | leafOK nm r hg hl =>
      obtain ⟨hne, hchars⟩ := hg
      cases nm with
      | nil => exact absurd rfl hne
      | cons x nm' => exact ⟨x, nm', rfl, (hchars x (by simp)).2.2.2⟩
  | nodeOK nm r cs hg hl hne hcs =>
      obtain ⟨hne', hchars⟩ := hg
      cases nm with
      | nil => exact absurd rfl hne'
      | cons x nm' =>
          refine ⟨x, nm' ++ '(' :: GExpr.canList cs ++ [')'], ?_,
            (hchars x (by simp)).2.2.2⟩
          rw [GExpr.canStr]
          simp

/-- Tokenizing the canonical string of an accounted tree, followed by
nothing or a delimiter/closer, produces exactly its token sequence. -/
theorem tokenize_canStr (g : Grammar) :
    ∀ t, TreeOK g t → ∀ rest,
      rest = [] ∨ (∃ r', rest = ',' :: r') ∨ (∃ r', rest = ')' :: r') →
      tokenize '(' ')' ',' (t.canStr ++ rest) =
        tokensOf t ++ tokenize '(' ')' ',' rest := by
  intro t hok
  induction hok with
  | leafOK nm r hg hl =>
      intro rest hrest
      show tokenize '(' ')' ',' (nm ++ rest) = [nm] ++ tokenize '(' ')' ',' rest
      rw [tokenize_name_stop nm rest hg hrest]
      rfl
  | nodeOK nm r cs hg hl hne hcs ih =>
      intro rest hrest
      have hassoc : GExpr.canStr (GExpr.node nm r.func none cs) ++ rest =
          nm ++ '(' :: (GExpr.canList cs ++ ')' :: rest) := by
        rw [GExpr.canStr]
        simp
      rw [hassoc, tokenize_name_open nm _ hg]
      have hinner : ∀ (cs' : List GExpr),
          (∀ c ∈ cs', TreeOK g c) →
          (∀ c ∈ cs', ∀ r2,
            r2 = [] ∨ (∃ r', r2 = ',' :: r') ∨ (∃ r', r2 = ')' :: r') →
            tokenize '(' ')' ',' (c.canStr ++ r2) =
              tokensOf c ++ tokenize '(' ')' ',' r2) →
          ∀ rest2, cs' ≠ [] →
            tokenize '(' ')' ',' (GExpr.canList cs' ++ ')' :: rest2) =
              sepTokens cs' ++ tokenize '(' ')' ',' (')' :: rest2) := by
        intro cs'
        induction cs' with
        | nil => intro _ _ rest2 h; exact absurd rfl h
        | cons c cs2 ihcs =>
            intro hoks ihs rest2 _
            cases cs2 with
            | nil =>
                show tokenize '(' ')' ',' (c.canStr ++ ')' :: rest2) = _
                rw [ihs c (by simp) (')' :: rest2) (Or.inr (Or.inr ⟨_, rfl⟩))]
                rfl
            | cons c2 cs3 =>
                have h1 : GExpr.canList (c :: c2 :: cs3) ++ ')' :: rest2 =
                    c.canStr ++
                      ',' :: ' ' ::
                        (GExpr.canList (c2 :: cs3) ++ ')' :: rest2) := by
                  rw [show GExpr.canList (c :: c2 :: cs3) =
                      c.canStr ++ ',' :: ' ' :: GExpr.canList (c2 :: cs3)
                      from rfl]
                  simp
                rw [h1, ihs c (by simp) _ (Or.inr (Or.inl ⟨_, rfl⟩))]
                obtain ⟨x, r', hx, hxs⟩ := canStr_head g c2 (hoks c2 (by simp))
                obtain ⟨tail, htail⟩ :
                    ∃ tail, GExpr.canList (c2 :: cs3) = x :: tail := by
                  cases cs3 with
                  | nil =>
                      exact ⟨r',
                        by rw [show GExpr.canList [c2] = c2.canStr from rfl, hx]⟩
                  | cons c3 cs4 =>
                      refine ⟨r' ++ ',' :: ' ' :: GExpr.canList (c3 :: cs4), ?_⟩
                      rw [show GExpr.canList (c2 :: c3 :: cs4) =
                          c2.canStr ++ ',' :: ' ' :: GExpr.canList (c3 :: cs4)
                          from rfl, hx]
                      simp
                have hhead : ∀ y ∈ (GExpr.canList (c2 :: cs3) ++
                    ')' :: rest2).head?, pySpace y = false := by
                  rw [htail]
                  intro y hy
                  simp at hy
                  subst hy
                  exact hxs
                rw [tokenize_delim_space _ hhead,
                    ihcs (fun a ha => hoks a (by simp [ha]))
                      (fun a ha r2 hr2 => ihs a (by simp [ha]) r2 hr2)
                      rest2 (List.cons_ne_nil c2 cs3)]
                show _ = (tokensOf c ++ [',', ' '] :: sepTokens (c2 :: cs3)) ++ _
                simp
      rw [hinner cs hcs ih rest hne, tokenize_close]
      show _ = ((nm ++ ['(']) :: (sepTokens cs ++ [[')']])) ++ _
      simp

/-- The concrete tokenization of the malformed input `"AND(T1,T1"`. -/
theorem tokenizeAND :
    tokenize '(' ')' ',' "AND(T1,T1".toList =
      ["AND(".toList, "T1".toList, ",".toList, "T1".toList] := by
  show tokenize '(' ')' ','
      ("AND".toList ++ '(' :: ("T1".toList ++ ',' :: "T1".toList)) = _
  rw [tokenize_name_open _ _ (by decide),
      tokenize_name_stop "T1".toList _ (by decide) (Or.inr (Or.inl ⟨_, rfl⟩)),
      tokenize_delim_nospace _ (by decide)]
  have hlast : tokenize '(' ')' ',' "T1".toList = ["T1".toList] := by
    have h := tokenize_name_stop "T1".toList [] (by decide) (Or.inl rfl)
    rw [List.append_nil] at h
    rw [h, tokenize_nil]
  rw [hlast]
  rfl

/-- C7: malformed input never yields a partial tree.  (1) If the token
loop finishes with a stack whose length differs from one (unbalanced
brackets), `parse` reports an error; (2) if `parse` succeeds, every rule
name referenced by any token was present in the grammar's name index —
contrapositively, an absent name makes `parse` fail (a `KeyError`); and
(3) concretely, parsing `"AND(T1,T1"` fails with the leftover-stack error
(two entries), not a truncated tree. -/
theorem parse_malformed_fails :
    (∀ (g : Grammar) (op cl dl : Char) (s : List Char) (st : List GExpr),
      parseTokens g op cl dl (tokenize op cl dl s) [] = .ok st →
      st.length ≠ 1 → ∃ e, g.parse s op cl dl = .error e) ∧
    (∀ (g : Grammar) (op cl dl : Char) (s : List Char) (t : GExpr),
      g.parse s op cl dl = .ok t →
      ∀ tk ∈ tokenize op cl dl s, ∀ nm, tokenNameOf op cl dl tk = some nm →
        (g.lookupName nm).isSome = true) ∧
    gB.parse "AND(T1,T1".toList '(' ')' ',' =
      .error (.badFinalStack 2) := by
  refine ⟨?_, ?_, ?_⟩
  · intro g op cl dl s st h hlen
    have hp : g.parse s op cl dl =
        (match parseTokens g op cl dl (tokenize op cl dl s) [] with
         | .error e => Except.error e
         | .ok [e] => Except.ok e
         | .ok st => Except.error (.badFinalStack st.length)) := rfl
    rw [h] at hp
    cases st with
    | nil => exact ⟨_, hp⟩
    | cons a tl =>
        cases tl with
        | nil => exact absurd rfl hlen
        | cons b tl2 => exact ⟨_, hp⟩
  · intro g op cl dl s t h tk htk nm hnm
    cases hres : parseTokens g op cl dl (tokenize op cl dl s) [] with
    | error e =>
        have hp : (match parseTokens g op cl dl (tokenize op cl dl s) [] with
           | .error e => Except.error e
           | .ok [e] => Except.ok e
           | .ok st => Except.error (.badFinalStack st.length)) =
            Except.ok t := h
        rw [hres] at hp
        cases hp
    | ok st => exact parseTokens_ok_known g op cl dl _ [] st hres tk htk nm hnm
  · show (match parseTokens gB '(' ')' ','
        (tokenize '(' ')' ',' "AND(T1,T1".toList) [] with
      | .error e => Except.error e
      | .ok [e] => Except.ok e
      | .ok st => Except.error (.badFinalStack st.length)) = _
    rw [tokenizeAND]
    rfl

/-- Witness for C7's stack-count clause at the concrete malformed input
`"AND(T1,T1"`. -/
theorem parse_malformed_fails_witness :
    ∃ e, gB.parse "AND(T1,T1".toList '(' ')' ',' = .error e :=
  parse_malformed_fails.1 gB '(' ')' ',' "AND(T1,T1".toList
    [GExpr.leaf "T1".toList 1 none,
     GExpr.node "AND".toList 3 none [GExpr.leaf "T1".toList 1 none]]
    (by rw [tokenizeAND]; rfl) (by decide)

theorem parseTokens_cons (g : Grammar) (op cl dl : Char) (tk : List Char)
    (rest : List (List Char)) (stack s' : List GExpr)
    (h : parseStep g op cl dl tk stack = .ok s') :
    parseTokens g op cl dl (tk :: rest) stack =
      parseTokens g op cl dl rest s' := by
  show (match parseStep g op cl dl tk stack with
    | .error e => Except.error e
    | .ok stack' => parseTokens g op cl dl rest stack') = _
  rw [h]

/-- A bare good name that the grammar knows pushes a leaf. -/
theorem parseStep_name (g : Grammar) (nm : List Char) (r : Rule)
    (stack : List GExpr) (hg : goodName nm)
    (hl : g.lookupName nm = some r) :
    parseStep g '(' ')' ',' nm stack =
      .ok (GExpr.leaf nm r.func none :: stack) := by
  obtain ⟨hne, hchars⟩ := hg
  have hstrip : pyStrip nm = nm :=
    pyStrip_no_space nm (fun c hc => (hchars c hc).2.2.2)
  have hlast : nm.getLast? = some (nm.getLast hne) :=
    List.getLast?_eq_getLast nm hne
  have hmem : nm.getLast hne ∈ nm := List.getLast_mem hne
  have hndl : nm ≠ [','] := by
    intro hh
    exact absurd rfl (hchars ',' (by simp [hh])).2.2.1
  have hncl : nm ≠ [')'] := by
    intro hh
    exact absurd rfl (hchars ')' (by simp [hh])).2.1
  simp only [parseStep, hstrip, hlast]
  rw [if_neg (hchars _ hmem).1, if_neg (by simp [hndl, hncl]), hl]

/-- A fused `name(` token with a known good name pushes an empty node. -/
theorem parseStep_open (g : Grammar) (nm : List Char) (r : Rule)
    (stack : List GExpr) (hg : goodName nm)
    (hl : g.lookupName nm = some r) :
    parseStep g '(' ')' ',' (nm ++ ['(']) stack =
      .ok (GExpr.node nm r.func none [] :: stack) := by
  obtain ⟨hne, hchars⟩ := hg
  have hstrip : pyStrip (nm ++ ['(']) = nm ++ ['('] := by
    apply pyStrip_no_space
    intro c hc
    rcases List.mem_append.mp hc with hc | hc
    · exact (hchars c hc).2.2.2
    · simp at hc
      subst hc
      rfl
  have hlast : (nm ++ ['(']).getLast? = some '(' := by
    simp
  simp only [parseStep, hstrip, hlast, if_true, List.dropLast_concat]
  rw [hl]

/-- A delimiter or closer token pops the child and appends it to the
parent node. -/
theorem parseStep_pop (g : Grammar) (tk : List Char)
    (htk : tk = [','] ∨ tk = [',', ' '] ∨ tk = [')'])
    (child : GExpr) (nm : List Char) (f : Nat) (fm : Option (List Char))
    (cs stack : List GExpr) :
    parseStep g '(' ')' ',' tk (child :: GExpr.node nm f fm cs :: stack) =
      .ok (GExpr.node nm f fm (cs ++ [child]) :: stack) := by
  have hstrip : pyStrip tk = [','] ∨ pyStrip tk = [')'] := by
    rcases htk with rfl | rfl | rfl
    · left; rfl
    · left; rfl
    · right; rfl
  rcases hstrip with h | h <;>
    simp [parseStep, h, appendChild]

/-- Processing the separated token sequences of a child list appends the
children, in order, to the node below them on the stack; the trailing
closer token appends the last child. -/
theorem parseTokens_sep (g : Grammar) :
    ∀ cs : List GExpr, cs ≠ [] →
      (∀ c ∈ cs, ∀ ts stack,
        parseTokens g '(' ')' ',' (tokensOf c ++ ts) stack =
          parseTokens g '(' ')' ',' ts (c :: stack)) →
      ∀ (nm : List Char) (f : Nat) (fm : Option (List Char))
        (acc : List GExpr) (ts : List (List Char)) (stack : List GExpr),
        parseTokens g '(' ')' ',' (sepTokens cs ++ [')'] :: ts)
            (GExpr.node nm f fm acc :: stack) =
          parseTokens g '(' ')' ',' ts
            (GExpr.node nm f fm (acc ++ cs) :: stack) := by
  intro cs
  induction cs with
  | nil => intro h; exact absurd rfl h
  | cons c cs2 ihcs =>
      intro _ hstep nm f fm acc ts stack
      cases cs2 with
      | nil =>
          rw [show sepTokens [c] = tokensOf c from rfl,
              hstep c (by simp) ([')'] :: ts) _,
              parseTokens_cons g '(' ')' ',' [')'] ts _ _
                (parseStep_pop g [')'] (Or.inr (Or.inr rfl)) c nm f fm acc
                  stack)]
      | cons c2 cs3 =>
          rw [show sepTokens (c :: c2 :: cs3) =
              tokensOf c ++ [',', ' '] :: sepTokens (c2 :: cs3) from rfl,
              List.append_assoc,
              hstep c (by simp) _ _,
              List.cons_append,
              parseTokens_cons g '(' ')' ',' [',', ' '] _ _ _
                (parseStep_pop g [',', ' '] (Or.inr (Or.inl rfl)) c nm f fm
                  acc stack),
              ihcs (List.cons_ne_nil c2 cs3)
                (fun a ha ts2 stack2 => hstep a (by simp [ha]) ts2 stack2)
                nm f fm (acc ++ [c]) ts stack]
          simp

/-- Processing the token sequence of an accounted tree pushes exactly that
tree on the stack. -/
theorem parseTokens_tokensOf (g : Grammar) :
    ∀ t, TreeOK g t → ∀ ts stack,
      parseTokens g '(' ')' ',' (tokensOf t ++ ts) stack =
        parseTokens g '(' ')' ',' ts (t :: stack) := by
  intro t hok
  induction hok with
  | leafOK nm r hg hl =>
      intro ts stack
      rw [show tokensOf (GExpr.leaf nm r.func none) = [nm] from rfl,
          List.cons_append, List.nil_append,
          parseTokens_cons g '(' ')' ',' nm ts stack _
            (parseStep_name g nm r stack hg hl)]
  | nodeOK nm r cs hg hl hne hcs ih =>
      intro ts stack
      rw [show tokensOf (GExpr.node nm r.func none cs) =
          (nm ++ ['(']) :: (sepTokens cs ++ [[')']]) from rfl,
          List.cons_append, List.append_assoc,
          parseTokens_cons g '(' ')' ',' (nm ++ ['(']) _ stack _
            (parseStep_open g nm r stack hg hl),
          show ([[')']] : List (List Char)) ++ ts = [')'] :: ts from rfl,
          parseTokens_sep g cs hne
            (fun c hc ts2 stack2 => ih c hc ts2 stack2) nm r.func none []
            ts stack]
      rfl

/-- Round-trip core: an accounted tree parses back from its canonical
string form. -/
theorem parse_canStr (g : Grammar) (t : GExpr) (hok : TreeOK g t) :
    g.parse t.canStr '(' ')' ',' = .ok t := by
  have htk : tokenize '(' ')' ',' t.canStr = tokensOf t := by
    have h1 := tokenize_canStr g t hok [] (Or.inl rfl)
    rw [List.append_nil, tokenize_nil, List.append_nil] at h1
    exact h1
  show (match parseTokens g '(' ')' ','
      (tokenize '(' ')' ',' t.canStr) [] with
    | .error e => Except.error e
    | .ok [e] => Except.ok e
    | .ok st => Except.error (ParseErr.badFinalStack st.length)) = _
  rw [htk]
  have h2 := parseTokens_tokensOf g t hok [] []
  rw [List.append_nil] at h2
  rw [h2]
  rfl

/-- Self-consistency of a grammar, as the round-trip claim assumes it:
every rule reachable through the lhs index is registered under its own
name in `_rules_by_name`, its name survives tokenization (nonempty, no
delimiter or whitespace characters), and no present rhs is empty (on an
empty rhs `enumerate` raises `ValueError` at `max(())` and `generate`
builds a zero-child call whose string form does not parse back). -/
def Grammar.WF (g : Grammar) : Prop :=
  ∀ p ∈ g.rulesByLhs, ∀ r ∈ p.2,
    g.lookupName r.name = some r ∧ goodName r.name ∧ r.rhs ≠ some []

instance (g : Grammar) : Decidable g.WF := by
  unfold Grammar.WF; infer_instance

theorem rulesFor_wf (g : Grammar) (hwf : g.WF) (lhs : List Char) :
    ∀ r ∈ g.rulesFor lhs,
      g.lookupName r.name = some r ∧ goodName r.name ∧ r.rhs ≠ some [] := by
  intro r hr
  unfold Grammar.rulesFor at hr
  cases hfind : g.rulesByLhs.find? (fun p => p.1 == lhs) with
  | none => rw [hfind] at hr; cases hr
  | some p =>
      rw [hfind] at hr
      exact hwf p (List.mem_of_find?_eq_some hfind) r hr

/-- Trees producible by `Grammar.generate` at symbol `lhs`: `generate`
draws one rule for `lhs` (by weight; any stored rule can be drawn) and
recurses on each rhs symbol, building `GrammaticalExpression(rule.name,
rule.func, children)` with `children = None` for a terminal rule and the
tuple of recursive results otherwise. -/
inductive Generated (g : Grammar) : List Char → GExpr → Prop where
  | termR : ∀ lhs r, r ∈ g.rulesFor lhs → r.rhs = none →
      Generated g lhs (GExpr.leaf r.name r.func none)
  | nontermR : ∀ lhs r rhs cs, r ∈ g.rulesFor lhs → r.rhs = some rhs →
      cs.length = rhs.length →
      (∀ p ∈ rhs.zip cs, Generated g p.1 p.2) →
      Generated g lhs (GExpr.node r.name r.func none cs)

theorem mem_zip_right {α β : Type} : ∀ (xs : List α) (ys : List β),
    ys.length = xs.length → ∀ y ∈ ys, ∃ x, (x, y) ∈ xs.zip ys := by
  intro xs
  induction xs with
  | nil =>
      intro ys hlen y hy
      rw [List.length_eq_zero.mp hlen] at hy
      cases hy
  | cons x xs ih =>
      intro ys hlen y hy
      cases ys with
      | nil => cases hy
      | cons y0 ys' =>
          rcases List.mem_cons.mp hy with rfl | hy'
          · exact ⟨x, List.mem_cons_self _ _⟩
          · obtain ⟨x', hx'⟩ := ih ys' (by simpa using hlen) y hy'
            exact ⟨x', List.mem_cons_of_mem _ hx'⟩

/-- In a self-consistent grammar every generable tree is accounted for by
the parser invariant `TreeOK`. -/
theorem generated_treeOK (g : Grammar) (hwf : g.WF) :
    ∀ lhs t, Generated g lhs t → TreeOK g t := by
  intro lhs t hgen
  induction hgen with
  | termR lhs r hr _ =>
      obtain ⟨hlook, hgood, _⟩ := rulesFor_wf g hwf lhs r hr
      exact TreeOK.leafOK r.name r hgood hlook
  | nontermR lhs r rhs cs hr hrhs hlen hmem ih =>
      obtain ⟨hlook, hgood, hrhs_ne⟩ := rulesFor_wf g hwf lhs r hr
      have hcsne : cs ≠ [] := by
        intro h0
        subst h0
        exact hrhs_ne ((List.length_eq_zero.mp hlen.symm) ▸ hrhs)
      apply TreeOK.nodeOK r.name r cs hgood hlook hcsne
      intro c hc
      obtain ⟨l, hl⟩ := mem_zip_right rhs cs hlen c hc
      exact ih (l, c) hl

theorem zip_forall2_generated (g : Grammar) (fuel : Nat)
    (ih : ∀ depth lhs t, t ∈ enumY g fuel depth lhs → Generated g lhs t) :
    ∀ (ds : List Nat) (rhs : List (List Char)) (cs : List GExpr),
      List.Forall₂ (fun c l => c ∈ l)
        cs ((ds.zip rhs).map (fun p => enumY g fuel p.1 p.2)) →
      ∀ p ∈ rhs.zip cs, Generated g p.1 p.2 := by
  intro ds
  induction ds with
  | nil =>
      intro rhs cs hcs p hp
      cases hcs
      simp at hp
  | cons d ds' ihd =>
      intro rhs cs hcs p hp
      cases rhs with
      | nil => simp at hp
      | cons l rhs' =>
          cases hcs with
          | cons hmem htail =>
              rename_i c cs'
              rcases List.mem_cons.mp hp with rfl | hp'
              · exact ih d l c hmem
              · exact ihd rhs' cs' htail p hp'

/-- Every tree yielded by the enumeration core is generable: it is built
from a stored rule for its symbol with children drawn recursively from
the rhs symbols. -/
theorem enumY_generated (g : Grammar) :
    ∀ (fuel depth : Nat) (lhs : List Char) (t : GExpr),
      t ∈ enumY g fuel depth lhs → Generated g lhs t := by
  intro fuel
  induction fuel with
  | zero => intro depth lhs t ht; cases ht
  | succ fuel ih =>
      intro depth lhs t ht
      rcases enumY_mem_cases g fuel depth lhs t ht with
        ⟨_, r, hr, hterm, rfl⟩ | ⟨r, hr, rhs, hrhs, ds, hds, _, cs, hcs, rfl⟩
      · refine Generated.termR lhs r hr ?_
        unfold Rule.is_terminal at hterm
        cases hrr : r.rhs with
        | none => rfl
        | some l => rw [hrr] at hterm; cases hterm
      · obtain ⟨hdlen, _⟩ := (depthTuples_mem depth rhs.length ds).mp hds
        have hlen : cs.length = rhs.length := by
          have hq := List.Forall₂.length_eq hcs
          rw [List.length_map, List.length_zip, hdlen, Nat.min_self] at hq
          exact hq
        exact Generated.nontermR lhs r rhs cs hr hrhs hlen
          (zip_forall2_generated g fuel ih ds rhs cs hcs)

/-- C1: in a grammar whose rule names and arities are self-consistent
(`Grammar.WF`), every tree produced by `generate` (any derivation of
`Generated`) or yielded by `enumerate_at_depth` parses back from its
canonical string form to a structurally equal tree:
`parse(str(t)) = ok t`. -/
theorem parse_str_roundtrip (g : Grammar) (lhs : List Char) (t : GExpr)
    (hwf : g.WF)
    (ht : Generated g lhs t ∨
      ∃ (d : Nat) (dict : Dict Unit) (u : Option (UniqueArgs Unit)),
        t ∈ (g.enumerate_at_depth Unit u d lhs dict).1) :
    g.parse t.canStr '(' ')' ',' = .ok t := by
  apply parse_canStr
  apply generated_treeOK g hwf lhs
  rcases ht with h | ⟨d, dict, u, h⟩
  · exact h
  · rw [Grammar.enumerate_at_depth, enumF_eq] at h
    exact enumY_generated g (d + 1) d lhs t h

/-- The round-trip at a concrete input: the depth-1 tree `AND(T1, T2)`
yielded by the scenario grammar parses back from its canonical string. -/
theorem parse_str_roundtrip_witness :
    gB.WF ∧
    gB.parse (GExpr.node "AND".toList 3 none
        [GExpr.leaf "T1".toList 1 none,
         GExpr.leaf "T2".toList 2 none]).canStr '(' ')' ',' =
      .ok (GExpr.node "AND".toList 3 none
        [GExpr.leaf "T1".toList 1 none,
         GExpr.leaf "T2".toList 2 none]) :=
  ⟨by decide,
   parse_str_roundtrip gB "B".toList _ (by decide)
     (Or.inr ⟨1, [], none, by decide⟩)⟩

end Ultk
